import Mathlib

/-!
Verification of OmniCompiler's session supervisor against its specification.

The definitions below are shallow embeddings of the Python source:
  * `src/server/routes/ws_routes.py`  — websocket run/debug handlers, stdout pump
  * `src/server/routes/run_routes.py` — session creation and validation
  * `src/server/oc_docker/oc_py_debugger.py` — the bdb-based Python debug shim
Each definition's doc comment names the function and lines it embeds.
-/

namespace OmniSpec

/-! ## Sentinel and the stdout pump (ws_routes.py, lines 4-12 and 2246-2298)

The pump reads byte chunks, decodes each chunk with errors ignored, prepends
the rolling carry, scans for the sentinel, and emits output frames plus
`awaiting_input` edges.  We model the decoded character stream as `List Char`
and one frame as `OutFrame`. -/

/-- `SENTINEL = "<<<OC_AWAIT>>>"` (ws_routes.py line 4 and line 12). -/
def SENTINEL : String := "<<<OC_AWAIT>>>"

/-- The sentinel as a character list. -/
def sentinel : List Char := SENTINEL.data

/-- A frame sent on the websocket by the stdout pump `pump_async`
(ws_routes.py 2246-2298): an `out` data frame, or an `awaiting_input`
frame carrying its value and whether it came from the explicit sentinel
(line 2295) or from the missing-trailing-newline heuristic (2283, 2293). -/
inductive OutFrame where
  | out (data : List Char)
  | awaiting (value : Bool) (viaSentinel : Bool)
deriving DecidableEq, Repr

/-- Index of the leftmost occurrence of `sentinel` in `t`
(`text.find(s, i)` at ws_routes.py line 2268, on the not-yet-scanned
remainder of the text). -/
def findOcc : List Char → Option Nat
  | [] => none
  | c :: rest =>
    if sentinel <+: (c :: rest) then some 0
    else (findOcc rest).map (· + 1)

/-- Countdown helper for the carry computation: the largest `k ≤ bound` such
that `sentinel.take k` is a suffix of `t`, or `0`. -/
def tailLenGo : Nat → List Char → Nat
  | 0, _ => 0
  | k + 1, t => if sentinel.take (k + 1) <:+ t then k + 1 else tailLenGo k t

/-- Length of the carry retained when no full sentinel is found: the longest
suffix of the text that is a proper sentinel prefix (ws_routes.py 2272-2277:
`max_tail = min(len(s) - 1, len(text) - i)` and the descending `endswith`
loop). -/
def tailLen (t : List Char) : Nat := tailLenGo (min 13 t.length) t

/-- Frames produced when a part of the text is emitted: the `out` frame if
the part is nonempty, followed by the heuristic `awaiting_input=true` edge
when the part does not end with a newline (ws_routes.py 2279-2283 and
2288-2293 use this same shape). -/
def emitFrames (emit : List Char) : List OutFrame :=
  if emit = [] then []
  else if emit.getLast? = some '\n' then [.out emit]
  else [.out emit, .awaiting true false]

/-- One round of the inner sentinel-scanning loop of `pump_async`
(ws_routes.py 2265-2296) on the unscanned remainder `t`, fuelled by the
length of `t`.  Returns the emitted frames and the retained carry. -/
def processTextGo : Nat → List Char → List OutFrame × List Char
  | 0, t => ([], t)
  | fuel + 1, t =>
    match findOcc t with
    | some j =>
      -- lines 2287-2296: emit the pre-sentinel part (with the newline
      -- heuristic), emit the sentinel-triggered edge, continue after it
      let r := processTextGo fuel (t.drop (j + sentinel.length))
      (emitFrames (t.take j) ++ .awaiting true true :: r.1, r.2)
    | none =>
      -- lines 2270-2285: retain the longest sentinel-prefix suffix, emit
      -- the rest (with the newline heuristic)
      let k := tailLen t
      (emitFrames (t.take (t.length - k)), t.drop (t.length - k))

/-- Scan one decoded text (carry already prepended) for sentinels. -/
def processText (t : List Char) : List OutFrame × List Char :=
  processTextGo t.length t

/-- The pump over a sequence of decoded chunks, threading the carry
(ws_routes.py 2247-2257: `text = carry + chunk.decode(...)`; at EOF the
residual carry is flushed as a final frame, lines 2251-2254, without any
`awaiting_input` heuristic). -/
def pumpGo : List Char → List (List Char) → List OutFrame
  | carry, [] => if carry = [] then [] else [.out carry]
  | carry, c :: cs =>
    let r := processText (carry ++ c)
    r.1 ++ pumpGo r.2 cs

/-- Frames emitted by the stdout pump on a chunked stream (initial carry is
empty, ws_routes.py line 2247). -/
def pump (chunks : List (List Char)) : List OutFrame :=
  pumpGo [] chunks

/-- Concatenation of the `out` payloads of a frame list. -/
def payload : List OutFrame → List Char
  | [] => []
  | .out d :: fs => d ++ payload fs
  | .awaiting _ _ :: fs => payload fs

/-- Number of sentinel-triggered `awaiting_input=true` edges in a frame
list (frames produced at ws_routes.py line 2295). -/
def sentCount : List OutFrame → Nat
  | [] => 0
  | .awaiting _ true :: fs => sentCount fs + 1
  | _ :: fs => sentCount fs

/-- Reference semantics of sentinel removal: one left-to-right scan that
removes each leftmost sentinel occurrence and counts it, fuelled by the
length of the text. -/
def scrubGo : Nat → List Char → List Char × Nat
  | 0, t => (t, 0)
  | fuel + 1, t =>
    if sentinel <+: t then
      let r := scrubGo fuel (t.drop sentinel.length)
      (r.1, r.2 + 1)
    else
      match t with
      | [] => ([], 0)
      | c :: rest =>
        let r := scrubGo fuel rest
        (c :: r.1, r.2)

/-- Left-to-right sentinel removal and count on a whole stream. -/
def scrub (t : List Char) : List Char × Nat :=
  scrubGo t.length t

/-- Number of positions of `t` at which the sentinel occurs. -/
def occCount : List Char → Nat
  | [] => 0
  | c :: rest => (if sentinel <+: (c :: rest) then 1 else 0) + occCount rest

/-! ### Basic facts about the sentinel -/

theorem sentinel_ne_nil : sentinel ≠ [] := by decide

theorem sentinel_length : sentinel.length = 14 := by decide

theorem not_prefix_of_short {t : List Char} (h : t.length < sentinel.length) :
    ¬ sentinel <+: t := fun hp => absurd hp.length_le (by omega)

/-! ### Fuel irrelevance and unfolding equations for `scrubGo` -/

theorem scrubGo_nil (fuel : Nat) : scrubGo fuel [] = ([], 0) := by
  cases fuel with
  | zero => rfl
  | succ n =>
    simp only [scrubGo]
    rw [if_neg]
    exact fun hp => sentinel_ne_nil (List.prefix_nil.mp hp)

theorem scrubGo_fuel2 (f1 : Nat) : ∀ (f2 : Nat) (t : List Char),
    t.length ≤ f1 → t.length ≤ f2 → scrubGo f1 t = scrubGo f2 t := by
  induction f1 with
  | zero =>
    intro f2 t h1 _
    have : t = [] := List.length_eq_zero.mp (Nat.le_zero.mp h1)
    subst this
    rw [scrubGo_nil, scrubGo_nil]
  | succ n ih =>
    intro f2 t h1 h2
    by_cases hp : sentinel <+: t
    · have hlen : sentinel.length ≤ t.length := hp.length_le
      have hs := sentinel_length
      obtain ⟨k, hk⟩ : ∃ k, f2 = k + 1 := ⟨f2 - 1, by omega⟩
      have hd1 : (t.drop sentinel.length).length ≤ n := by
        rw [List.length_drop]; omega
      have hd2 : (t.drop sentinel.length).length ≤ k := by
        rw [List.length_drop]; omega
      have e1 : scrubGo (n + 1) t =
          ((scrubGo n (t.drop sentinel.length)).1,
           (scrubGo n (t.drop sentinel.length)).2 + 1) := by
        cases t with
        | nil => exact absurd (List.prefix_nil.mp hp) sentinel_ne_nil
        | cons c rest => simp only [scrubGo, if_pos hp]
      have e2 : scrubGo (k + 1) t =
          ((scrubGo k (t.drop sentinel.length)).1,
           (scrubGo k (t.drop sentinel.length)).2 + 1) := by
        cases t with
        | nil => exact absurd (List.prefix_nil.mp hp) sentinel_ne_nil
        | cons c rest => simp only [scrubGo, if_pos hp]
      rw [hk, e1, e2, ih k _ hd1 hd2]
    · cases t with
      | nil => rw [scrubGo_nil, scrubGo_nil]
      | cons c rest =>
        obtain ⟨k, hk⟩ : ∃ k, f2 = k + 1 := ⟨f2 - 1, by simp at h2; omega⟩
        have hr1 : rest.length ≤ n := by simpa using h1
        have hr2 : rest.length ≤ k := by
          subst hk; simpa using h2
        have e1 : scrubGo (n + 1) (c :: rest) =
            (c :: (scrubGo n rest).1, (scrubGo n rest).2) := by
          simp only [scrubGo, if_neg hp]
        have e2 : scrubGo (k + 1) (c :: rest) =
            (c :: (scrubGo k rest).1, (scrubGo k rest).2) := by
          simp only [scrubGo, if_neg hp]
        rw [hk, e1, e2, ih k _ hr1 hr2]

theorem scrubGo_fuel {fuel : Nat} {t : List Char} (h : t.length ≤ fuel) :
    scrubGo fuel t = scrub t :=
  scrubGo_fuel2 fuel t.length t h (le_refl _)

theorem scrub_nil : scrub [] = ([], 0) := rfl

theorem scrub_pos {t : List Char} (hp : sentinel <+: t) :
    scrub t = ((scrub (t.drop sentinel.length)).1,
               (scrub (t.drop sentinel.length)).2 + 1) := by
  have hlen : sentinel.length ≤ t.length := hp.length_le
  have hpos : 0 < t.length := by have := sentinel_length; omega
  obtain ⟨m, hm⟩ : ∃ m, t.length = m + 1 := ⟨t.length - 1, by omega⟩
  have hs := sentinel_length
  have hdrop : (t.drop sentinel.length).length ≤ m := by
    rw [List.length_drop]; omega
  have h2 : scrubGo (m + 1) t =
      ((scrubGo m (t.drop sentinel.length)).1,
       (scrubGo m (t.drop sentinel.length)).2 + 1) := by
    cases t with
    | nil => exact absurd (List.prefix_nil.mp hp) sentinel_ne_nil
    | cons c rest => simp only [scrubGo, if_pos hp]
  rw [scrub, hm, h2, scrubGo_fuel hdrop]

theorem scrub_neg {c : Char} {rest : List Char} (hp : ¬ sentinel <+: (c :: rest)) :
    scrub (c :: rest) = (c :: (scrub rest).1, (scrub rest).2) := by
  have h2 : scrubGo (rest.length + 1) (c :: rest) =
      (c :: (scrubGo rest.length rest).1, (scrubGo rest.length rest).2) := by
    simp only [scrubGo, if_neg hp]
  rw [scrub, List.length_cons, h2, scrubGo_fuel (le_refl _)]

/-- A text shorter than the sentinel is scrubbed to itself. -/
theorem scrub_short {t : List Char} (h : t.length < sentinel.length) :
    scrub t = (t, 0) := by
  induction t with
  | nil => rfl
  | cons c rest ih =>
    rw [scrub_neg (not_prefix_of_short h)]
    rw [ih (by simp at h ⊢; omega)]

/-! ### Correctness of `findOcc` and `tailLen` -/

theorem findOcc_none {t : List Char} (h : findOcc t = none) :
    ∀ p, ¬ sentinel <+: t.drop p := by
  induction t with
  | nil =>
    intro p hp
    rw [List.drop_nil] at hp
    exact sentinel_ne_nil (List.prefix_nil.mp hp)
  | cons c rest ih =>
    intro p
    by_cases hp0 : sentinel <+: (c :: rest)
    · rw [findOcc, if_pos hp0] at h
      exact absurd h (by simp)
    · rw [findOcc, if_neg hp0] at h
      have hrest : findOcc rest = none := by
        cases he : findOcc rest with
        | none => rfl
        | some j => rw [he] at h; exact absurd h (by simp)
      cases p with
      | zero => simpa using hp0
      | succ q => simpa using ih hrest q

theorem findOcc_some {t : List Char} {j : Nat} (h : findOcc t = some j) :
    sentinel <+: t.drop j ∧ ∀ p, p < j → ¬ sentinel <+: t.drop p := by
  induction t generalizing j with
  | nil => exact absurd h (by simp [findOcc])
  | cons c rest ih =>
    by_cases hp0 : sentinel <+: (c :: rest)
    · rw [findOcc, if_pos hp0] at h
      have hj : j = 0 := by simpa using h.symm
      subst hj
      exact ⟨by simpa using hp0, fun p hp => absurd hp (by omega)⟩
    · rw [findOcc, if_neg hp0] at h
      obtain ⟨j1, hj1, hj⟩ : ∃ j1, findOcc rest = some j1 ∧ j = j1 + 1 := by
        cases he : findOcc rest with
        | none => rw [he] at h; exact absurd h (by simp)
        | some k =>
          rw [he] at h
          exact ⟨k, rfl, by simpa using h.symm⟩
      obtain ⟨h1, h2⟩ := ih hj1
      subst hj
      refine ⟨by simpa using h1, ?_⟩
      intro p hp
      cases p with
      | zero => simpa using hp0
      | succ q => simpa using h2 q (by omega)

theorem tailLenGo_le (b : Nat) (t : List Char) : tailLenGo b t ≤ b := by
  induction b with
  | zero => exact le_refl _
  | succ n ih =>
    rw [tailLenGo]
    split
    · exact le_refl _
    · exact Nat.le_succ_of_le ih

theorem tailLenGo_suffix (b : Nat) (t : List Char) :
    sentinel.take (tailLenGo b t) <:+ t := by
  induction b with
  | zero => simp [tailLenGo]
  | succ n ih =>
    rw [tailLenGo]
    split
    · assumption
    · exact ih

theorem tailLenGo_max (b : Nat) (t : List Char) (k : Nat)
    (h1 : tailLenGo b t < k) (h2 : k ≤ b) : ¬ sentinel.take k <:+ t := by
  induction b with
  | zero => omega
  | succ n ih =>
    rw [tailLenGo] at h1
    by_cases hs : sentinel.take (n + 1) <:+ t
    · rw [if_pos hs] at h1; omega
    · rw [if_neg hs] at h1
      rcases Nat.lt_or_ge k (n + 1) with hk | hk
      · exact ih h1 (by omega)
      · have : k = n + 1 := by omega
        subst this; exact hs

theorem tailLen_le13 (t : List Char) : tailLen t ≤ 13 :=
  le_trans (tailLenGo_le _ _) (min_le_left _ _)

theorem tailLen_le_len (t : List Char) : tailLen t ≤ t.length :=
  le_trans (tailLenGo_le _ _) (min_le_right _ _)

theorem tailLen_suffix (t : List Char) :
    sentinel.take (tailLen t) <:+ t := tailLenGo_suffix _ _

theorem tailLen_max (t : List Char) (k : Nat) (h1 : tailLen t < k)
    (h2 : k ≤ 13) (h3 : k ≤ t.length) : ¬ sentinel.take k <:+ t :=
  tailLenGo_max _ _ _ h1 (le_min h2 h3)

/-! ### Transport lemmas for sentinel occurrences across appends -/

/-- A sentinel occurrence at position `p` that fits inside `a` is an
occurrence in `a` alone. -/
theorem occ_append_left {a f : List Char} {p : Nat}
    (hfit : p + sentinel.length ≤ a.length)
    (h : sentinel <+: (a ++ f).drop p) : sentinel <+: a.drop p := by
  rw [List.prefix_iff_eq_take] at h ⊢
  rw [List.drop_append_eq_append_drop] at h
  have hp : p ≤ a.length := by omega
  rw [Nat.sub_eq_zero_of_le hp, List.drop_zero] at h
  rw [List.take_append_eq_append_take] at h
  have hlen : (a.drop p).length = a.length - p := List.length_drop _ _
  have hz : sentinel.length - (a.drop p).length = 0 := by omega
  rw [hz, List.take_zero, List.append_nil] at h
  exact h

/-- Scrubbing skips over a region in which no occurrence starts. -/
theorem scrub_append_left (pre rest : List Char)
    (h : ∀ p, p < pre.length → ¬ sentinel <+: (pre ++ rest).drop p) :
    scrub (pre ++ rest) = (pre ++ (scrub rest).1, (scrub rest).2) := by
  induction pre with
  | nil => simp
  | cons c pre1 ih =>
    have h0 : ¬ sentinel <+: (c :: (pre1 ++ rest)) := by
      simpa using h 0 (by simp)
    rw [List.cons_append, scrub_neg h0, ih (fun p hp => by simpa using h (p + 1) (by simpa using hp))]
    simp

/-- Key robustness fact: if no complete sentinel occurs in `t`, then no
occurrence of the sentinel in `t ++ f` (for any future input `f`) starts
inside the part that the pump emits; every such occurrence starts inside
the retained carry. -/
theorem no_occ_in_emit {t f : List Char} (hn : findOcc t = none)
    {p : Nat} (hp : p < t.length - tailLen t) :
    ¬ sentinel <+: (t ++ f).drop p := by
  intro hpre
  have htail := tailLen_le_len t
  rcases le_or_lt (p + sentinel.length) t.length with hfit | hfit
  · exact findOcc_none hn p (occ_append_left hfit hpre)
  · -- the occurrence would overhang `t`: its within-`t` part is a sentinel
    -- prefix that is a suffix of `t`, longer than the retained carry,
    -- contradicting the maximality of `tailLen`
    have hs := sentinel_length
    have hk1 : tailLen t < t.length - p := by omega
    have hk2 : t.length - p ≤ 13 := by omega
    have hk3 : t.length - p ≤ t.length := by omega
    refine tailLen_max t (t.length - p) hk1 hk2 hk3 ?_
    have hple : p ≤ t.length := by omega
    have heq : sentinel.take (t.length - p) = t.drop p := by
      rw [List.prefix_iff_eq_take] at hpre
      calc sentinel.take (t.length - p)
          = (((t ++ f).drop p).take sentinel.length).take (t.length - p) := by
            rw [← hpre]
        _ = ((t ++ f).drop p).take (t.length - p) := by
            rw [List.take_take, Nat.min_eq_left (by omega)]
        _ = (t.drop p ++ f).take (t.length - p) := by
            rw [List.drop_append_eq_append_drop, Nat.sub_eq_zero_of_le hple,
              List.drop_zero]
        _ = t.drop p := by
            rw [List.take_append_eq_append_take, List.length_drop,
              Nat.sub_self, List.take_zero, List.append_nil,
              List.take_of_length_le (by rw [List.length_drop])]
    rw [heq]
    exact List.drop_suffix p t

/-! ### Fuel irrelevance and unfolding equations for `processTextGo` -/

theorem processTextGo_nil (fuel : Nat) : processTextGo fuel [] = ([], []) := by
  cases fuel with
  | zero => rfl
  | succ n =>
    simp only [processTextGo, findOcc]
    norm_num [tailLen, tailLenGo, emitFrames]

theorem processTextGo_fuel2 (f1 : Nat) : ∀ (f2 : Nat) (t : List Char),
    t.length ≤ f1 → t.length ≤ f2 → processTextGo f1 t = processTextGo f2 t := by
  induction f1 with
  | zero =>
    intro f2 t h1 _
    have : t = [] := List.length_eq_zero.mp (Nat.le_zero.mp h1)
    subst this
    rw [processTextGo_nil, processTextGo_nil]
  | succ n ih =>
    intro f2 t h1 h2
    cases he : findOcc t with
    | some j =>
      have hocc := (findOcc_some he).1
      have hs := sentinel_length
      have hj : j + sentinel.length ≤ t.length := by
        have hd := hocc.length_le
        rw [List.length_drop] at hd
        omega
      obtain ⟨k, hk⟩ : ∃ k, f2 = k + 1 := ⟨f2 - 1, by omega⟩
      have hd1 : (t.drop (j + sentinel.length)).length ≤ n := by
        rw [List.length_drop]; omega
      have hd2 : (t.drop (j + sentinel.length)).length ≤ k := by
        rw [List.length_drop]; omega
      rw [hk]
      simp only [processTextGo, he]
      rw [ih k _ hd1 hd2]
    | none =>
      have hpos : 0 < t.length ∨ t = [] := by
        cases t with
        | nil => exact Or.inr rfl
        | cons c r => exact Or.inl (by simp)
      rcases hpos with hpos | hnil
      · obtain ⟨k, hk⟩ : ∃ k, f2 = k + 1 := ⟨f2 - 1, by omega⟩
        rw [hk]
        simp only [processTextGo, he]
      · subst hnil
        rw [processTextGo_nil, processTextGo_nil]

theorem processText_some {t : List Char} {j : Nat} (he : findOcc t = some j) :
    processText t =
      (emitFrames (t.take j) ++
        .awaiting true true :: (processText (t.drop (j + sentinel.length))).1,
       (processText (t.drop (j + sentinel.length))).2) := by
  have hocc := (findOcc_some he).1
  have hs := sentinel_length
  have hj : j + sentinel.length ≤ t.length := by
    have hd := hocc.length_le
    rw [List.length_drop] at hd
    omega
  obtain ⟨m, hm⟩ : ∃ m, t.length = m + 1 := ⟨t.length - 1, by omega⟩
  have hd : (t.drop (j + sentinel.length)).length ≤ m := by
    rw [List.length_drop]; omega
  rw [processText, hm]
  simp only [processTextGo, he]
  rw [processTextGo_fuel2 m _ _ hd (le_refl _)]
  rfl

theorem processText_none {t : List Char} (he : findOcc t = none) :
    processText t =
      (emitFrames (t.take (t.length - tailLen t)),
       t.drop (t.length - tailLen t)) := by
  cases t with
  | nil => simpa using processTextGo_nil 0
  | cons c rest =>
    rw [processText, List.length_cons]
    simp only [processTextGo, he]
    simp [List.length_cons]

/-! ### `payload` and `sentCount` helpers -/

theorem payload_append (a b : List OutFrame) :
    payload (a ++ b) = payload a ++ payload b := by
  induction a with
  | nil => rfl
  | cons f fs ih =>
    cases f with
    | out d => simp [payload, ih]
    | awaiting v s => simp [payload, ih]

theorem sentCount_append (a b : List OutFrame) :
    sentCount (a ++ b) = sentCount a + sentCount b := by
  induction a with
  | nil => simp [sentCount]
  | cons f fs ih =>
    cases f with
    | out d => simpa [sentCount] using ih
    | awaiting v s =>
      cases s with
      | false => simpa [sentCount] using ih
      | true => simp [sentCount, ih]; omega

theorem payload_emitFrames (emit : List Char) :
    payload (emitFrames emit) = emit := by
  rw [emitFrames]
  split
  · simpa [payload]
  · split <;> simp [payload]

theorem sentCount_emitFrames (emit : List Char) :
    sentCount (emitFrames emit) = 0 := by
  rw [emitFrames]
  split
  · rfl
  · split <;> rfl

/-! ### The key single-text lemma

Processing one text (the carry followed by a decoded chunk) accounts for
exactly the scrub of that text followed by whatever comes later: the pump
commits the emitted frames and defers the carry. -/

theorem processText_spec (n : Nat) : ∀ (t f : List Char), t.length ≤ n →
    scrub (t ++ f) =
      (payload (processText t).1 ++ (scrub ((processText t).2 ++ f)).1,
       sentCount (processText t).1 + (scrub ((processText t).2 ++ f)).2) := by
  induction n with
  | zero =>
    intro t f h
    have : t = [] := List.length_eq_zero.mp (Nat.le_zero.mp h)
    subst this
    have hpt : processText [] = ([], []) := processTextGo_nil 0
    rw [hpt]
    simp [payload, sentCount]
  | succ n ih =>
    intro t f h
    cases he : findOcc t with
    | none =>
      rw [processText_none he]
      have htl := tailLen_le_len t
      have happ : t ++ f =
          t.take (t.length - tailLen t) ++ (t.drop (t.length - tailLen t) ++ f) := by
        conv_lhs => rw [← List.take_append_drop (t.length - tailLen t) t]
        rw [List.append_assoc]
      rw [happ, scrub_append_left _ _ ?noocc1]
      case noocc1 =>
        intro p hp
        rw [← happ]
        apply no_occ_in_emit he
        rw [List.length_take] at hp
        omega
      rw [payload_emitFrames, sentCount_emitFrames]
      simp
    | some j =>
      obtain ⟨hocc, hleft⟩ := findOcc_some he
      have hs := sentinel_length
      have hj : j + sentinel.length ≤ t.length := by
        have hd := hocc.length_le
        rw [List.length_drop] at hd
        omega
      rw [processText_some he]
      have hdropj : t.drop j = sentinel ++ t.drop (j + sentinel.length) := by
        have h14 : sentinel = (t.drop j).take sentinel.length :=
          List.prefix_iff_eq_take.mp hocc
        calc t.drop j
            = (t.drop j).take sentinel.length ++ (t.drop j).drop sentinel.length :=
              (List.take_append_drop _ _).symm
          _ = sentinel ++ t.drop (j + sentinel.length) := by
              rw [← h14, List.drop_drop]
      have hsplit : t ++ f =
          t.take j ++ (sentinel ++ (t.drop (j + sentinel.length) ++ f)) := by
        conv_lhs => rw [← List.take_append_drop j t]
        rw [hdropj, List.append_assoc, List.append_assoc]
      rw [hsplit, scrub_append_left _ _ ?noocc2]
      case noocc2 =>
        intro p hp
        rw [← hsplit]
        have hpj : p < j := by
          rw [List.length_take] at hp
          omega
        intro hcon
        exact hleft p hpj (occ_append_left (by omega) hcon)
      rw [scrub_pos (List.prefix_append _ _), List.drop_left]
      have hu : (t.drop (j + sentinel.length)).length ≤ n := by
        rw [List.length_drop]; omega
      rw [ih _ f hu]
      rw [payload_append, sentCount_append, payload_emitFrames, sentCount_emitFrames]
      refine Prod.ext ?_ ?_
      · simp [payload, List.append_assoc]
      · simp [sentCount]
        omega

/-! ### The carry is always shorter than the sentinel -/

theorem processText_carry_length (n : Nat) : ∀ t : List Char,
    t.length ≤ n → (processText t).2.length ≤ 13 := by
  induction n with
  | zero =>
    intro t h
    have : t = [] := List.length_eq_zero.mp (Nat.le_zero.mp h)
    subst this
    have hpt : processText [] = ([], []) := processTextGo_nil 0
    rw [hpt]
    simp
  | succ n ih =>
    intro t h
    cases he : findOcc t with
    | some j =>
      have hs := sentinel_length
      have hj : j + sentinel.length ≤ t.length := by
        have hd := (findOcc_some he).1.length_le
        rw [List.length_drop] at hd
        omega
      rw [processText_some he]
      exact ih _ (by rw [List.length_drop]; omega)
    | none =>
      rw [processText_none he]
      have h13 := tailLen_le13 t
      have htl := tailLen_le_len t
      rw [List.length_drop]
      omega

/-! ### The chunked pump computes the scrub of the whole stream -/

theorem pumpGo_spec (cs : List (List Char)) : ∀ carry : List Char,
    carry.length ≤ 13 →
    payload (pumpGo carry cs) = (scrub (carry ++ cs.flatten)).1 ∧
    sentCount (pumpGo carry cs) = (scrub (carry ++ cs.flatten)).2 := by
  induction cs with
  | nil =>
    intro carry hc
    have hs := sentinel_length
    have hshort : scrub carry = (carry, 0) := scrub_short (by omega)
    rw [pumpGo, List.flatten_nil, List.append_nil, hshort]
    by_cases hn : carry = []
    · subst hn; simp [payload, sentCount]
    · rw [if_neg hn]; simp [payload, sentCount]
  | cons c cs ih =>
    intro carry hc
    rw [pumpGo]
    have hspec := processText_spec (carry ++ c).length (carry ++ c) cs.flatten (le_refl _)
    have hcar := processText_carry_length (carry ++ c).length (carry ++ c) (le_refl _)
    obtain ⟨ih1, ih2⟩ := ih (processText (carry ++ c)).2 hcar
    constructor
    · rw [payload_append, ih1, List.flatten_cons, ← List.append_assoc, hspec]
    · rw [sentCount_append, ih2, List.flatten_cons, ← List.append_assoc, hspec]

/-- Chunking invariance of the stdout pump: on any chunked character
stream, the concatenated `out` payload is the stream with its leftmost
sentinel occurrences removed, and one sentinel edge is emitted per
removed occurrence. -/
theorem pump_spec (chunks : List (List Char)) :
    payload (pump chunks) = (scrub chunks.flatten).1 ∧
    sentCount (pump chunks) = (scrub chunks.flatten).2 := by
  have h := pumpGo_spec chunks [] (by simp)
  rwa [List.nil_append] at h

/-! ### The scrub count equals the number of sentinel occurrences

This uses the fact that the sentinel `<<<OC_AWAIT>>>` has no nonempty
proper border, so its occurrences never overlap. -/

theorem sentinel_no_border : ∀ q, q < 14 → 0 < q →
    sentinel.take (14 - q) ≠ sentinel.drop q := by decide

theorem no_occ_near {t : List Char} (hp : sentinel <+: t) :
    ∀ q, 0 < q → q < sentinel.length → ¬ sentinel <+: t.drop q := by
  intro q hq0 hq14 hcon
  have hs := sentinel_length
  obtain ⟨u, hu⟩ := hp
  subst hu
  have hdq : (sentinel ++ u).drop q = sentinel.drop q ++ u := by
    rw [List.drop_append_eq_append_drop, Nat.sub_eq_zero_of_le (by omega),
      List.drop_zero]
  rw [hdq] at hcon
  have heq : sentinel.take (sentinel.length - q) = sentinel.drop q := by
    have h1 := List.prefix_iff_eq_take.mp hcon
    calc sentinel.take (sentinel.length - q)
        = ((sentinel.drop q ++ u).take sentinel.length).take (sentinel.length - q) := by
          rw [← h1]
      _ = (sentinel.drop q ++ u).take (sentinel.length - q) := by
          rw [List.take_take, Nat.min_eq_left (by omega)]
      _ = sentinel.drop q := by
          rw [List.take_append_eq_append_take, List.length_drop,
            Nat.sub_self, List.take_zero, List.append_nil,
            List.take_of_length_le (by rw [List.length_drop])]
  rw [hs] at heq
  exact sentinel_no_border q (by omega) hq0 heq

theorem occCount_drop_of_no_occ : ∀ (k : Nat) (t : List Char),
    (∀ p, p < k → ¬ sentinel <+: t.drop p) → k ≤ t.length →
    occCount t = occCount (t.drop k) := by
  intro k
  induction k with
  | zero => intro t _ _; rw [List.drop_zero]
  | succ m ih =>
    intro t h hk
    cases t with
    | nil => simp at hk
    | cons c rest =>
      have h0 : ¬ sentinel <+: (c :: rest) := by simpa using h 0 (by omega)
      rw [occCount, if_neg h0]
      have hrest : ∀ p, p < m → ¬ sentinel <+: rest.drop p := by
        intro p hp
        simpa using h (p + 1) (by omega)
      rw [ih rest hrest (by simpa using hk)]
      simp

theorem occCount_eq_scrub (n : Nat) : ∀ t : List Char,
    t.length ≤ n → occCount t = (scrub t).2 := by
  induction n with
  | zero =>
    intro t h
    have : t = [] := List.length_eq_zero.mp (Nat.le_zero.mp h)
    subst this
    rfl
  | succ n ih =>
    intro t h
    by_cases hp : sentinel <+: t
    · have hs := sentinel_length
      have hlen : sentinel.length ≤ t.length := hp.length_le
      rw [scrub_pos hp, ← ih _ (by rw [List.length_drop]; omega)]
      cases t with
      | nil => exact absurd (List.prefix_nil.mp hp) sentinel_ne_nil
      | cons c rest =>
        rw [occCount, if_pos hp]
        have hd1 : (c :: rest).drop 1 = rest := rfl
        have hnear : ∀ p, p < 13 → ¬ sentinel <+: rest.drop p := by
          intro p hpp hcon
          have : ¬ sentinel <+: (c :: rest).drop (p + 1) :=
            no_occ_near hp (p + 1) (by omega) (by omega)
          exact this (by simpa using hcon)
        have h13 : (13 : Nat) ≤ rest.length := by
          simp at hlen
          omega
        have hchain := occCount_drop_of_no_occ 13 rest hnear h13
        have hdrop : rest.drop 13 = (c :: rest).drop sentinel.length := by
          rw [hs]
          rfl
        rw [hchain, hdrop]
        omega
    · cases t with
      | nil => rfl
      | cons c rest =>
        rw [scrub_neg hp, occCount, if_neg hp, ← ih rest (by simpa using h)]
        simp

/-! ## The byte level: `chunk.decode(errors="ignore")` (ws_routes.py 2256)

The pump reads raw bytes and decodes each chunk separately before the
sentinel scan.  We model CPython's UTF-8 decoder with the `ignore` error
handler: well-formed sequences decode normally, and malformed or truncated
sequences are skipped (for a truncated sequence the valid lead bytes are
dropped). -/

/-- Is `b` a UTF-8 continuation byte? -/
def isCont (b : Nat) : Bool := 0x80 ≤ b && b < 0xC0

/-- Valid second byte for a three-byte lead. -/
def valid3Second (b1 b2 : Nat) : Bool :=
  if b1 = 0xE0 then 0xA0 ≤ b2 && b2 < 0xC0
  else if b1 = 0xED then 0x80 ≤ b2 && b2 < 0xA0
  else isCont b2

/-- Valid second byte for a four-byte lead. -/
def valid4Second (b1 b2 : Nat) : Bool :=
  if b1 = 0xF0 then 0x90 ≤ b2 && b2 < 0xC0
  else if b1 = 0xF4 then 0x80 ≤ b2 && b2 < 0x90
  else isCont b2

/-- UTF-8 decoding with the `ignore` error handler, fuelled by the number
of bytes (CPython semantics: each maximal subpart of an ill-formed
sequence is dropped, and a valid but truncated sequence at the end of the
chunk is dropped). -/
def utf8DecodeGo : Nat → List Nat → List Char
  | 0, _ => []
  | _, [] => []
  | fuel + 1, b :: rest =>
    if b < 0x80 then Char.ofNat b :: utf8DecodeGo fuel rest
    else if b < 0xC2 then
      -- stray continuation byte or overlong lead: drop it
      utf8DecodeGo fuel rest
    else if b < 0xE0 then
      match rest with
      | [] => []
      | b2 :: rest2 =>
        if isCont b2 then
          Char.ofNat ((b - 0xC0) * 0x40 + (b2 - 0x80)) :: utf8DecodeGo fuel rest2
        else utf8DecodeGo fuel rest
    else if b < 0xF0 then
      match rest with
      | [] => []
      | b2 :: rest2 =>
        if valid3Second b b2 then
          match rest2 with
          | [] => []
          | b3 :: rest3 =>
            if isCont b3 then
              Char.ofNat ((b - 0xE0) * 0x1000 + (b2 - 0x80) * 0x40 + (b3 - 0x80)) ::
                utf8DecodeGo fuel rest3
            else utf8DecodeGo fuel rest2
        else utf8DecodeGo fuel rest
    else if b < 0xF5 then
      match rest with
      | [] => []
      | b2 :: rest2 =>
        if valid4Second b b2 then
          match rest2 with
          | [] => []
          | b3 :: rest3 =>
            if isCont b3 then
              match rest3 with
              | [] => []
              | b4 :: rest4 =>
                if isCont b4 then
                  Char.ofNat ((b - 0xF0) * 0x40000 + (b2 - 0x80) * 0x1000 +
                    (b3 - 0x80) * 0x40 + (b4 - 0x80)) :: utf8DecodeGo fuel rest4
                else utf8DecodeGo fuel rest3
            else utf8DecodeGo fuel rest2
        else utf8DecodeGo fuel rest
    else
      -- invalid lead byte: drop it
      utf8DecodeGo fuel rest

/-- UTF-8 decoding with the `ignore` error handler. -/
def utf8DecodeIgnore (bs : List Nat) : List Char :=
  utf8DecodeGo bs.length bs

/-- The sentinel's bytes (all ASCII). -/
def sentinelBytes : List Nat := sentinel.map Char.toNat

/-- Occurrence count of a byte pattern in a byte stream. -/
def occCountBytes (pat : List Nat) : List Nat → Nat
  | [] => 0
  | b :: rest => (if pat <+: (b :: rest) then 1 else 0) + occCountBytes pat rest

/-- The run-session stdout pump at the byte level: each chunk read from
the child is decoded with errors ignored (ws_routes.py line 2256), the
decoded text is fed through the sentinel scanner. -/
def pumpBytes (chunks : List (List Nat)) : List OutFrame :=
  pump (chunks.map utf8DecodeIgnore)

/-! ## Well-formedness of heuristic edges (for the alternation claim)

Every heuristic `awaiting_input=true` edge the pump emits immediately
follows an `out` frame whose data does not end with a newline; a
sentinel-triggered edge may follow it directly, so consecutive `true`
edges occur. -/

/-- Check that every heuristic `awaiting` frame is directly preceded by an
`out` frame whose data does not end in a newline. -/
def heurOk : List OutFrame → Bool
  | [] => true
  | .out d :: .awaiting v false :: fs =>
    (v = true) && !(d.getLast? = some '\n') && heurOk fs
  | .out _ :: fs => heurOk fs
  | .awaiting v true :: fs => (v = true) && heurOk fs
  | .awaiting _ false :: _ => false

/-- Does a frame list avoid starting with a heuristic edge? -/
def headNotHeur : List OutFrame → Bool
  | .awaiting _ false :: _ => false
  | _ => true

theorem heurOk_out_cons (d : List Char) (fs : List OutFrame)
    (h : headNotHeur fs = true) : heurOk (.out d :: fs) = heurOk fs := by
  cases fs with
  | nil => rfl
  | cons f fs2 =>
    cases f with
    | out d2 => rfl
    | awaiting v s =>
      cases s with
      | true => rfl
      | false => simp [headNotHeur] at h

theorem headNotHeur_append (a b : List OutFrame) (ha : headNotHeur a = true)
    (hb : headNotHeur b = true) : headNotHeur (a ++ b) = true := by
  cases a with
  | nil => simpa using hb
  | cons f fs =>
    cases f with
    | out d => rfl
    | awaiting v s =>
      cases s with
      | true => rfl
      | false => simp [headNotHeur] at ha

theorem heurOk_append : ∀ (a b : List OutFrame),
    heurOk a = true → heurOk b = true → headNotHeur b = true →
    heurOk (a ++ b) = true := by
  intro a
  induction a using heurOk.induct with
  | case1 =>
    intro b _ hb _
    simpa using hb
  | case2 d v fs ih =>
    intro b ha hb hh
    rw [heurOk] at ha
    simp only [Bool.and_eq_true] at ha
    obtain ⟨⟨hv, hd⟩, hfs⟩ := ha
    simp only [List.cons_append, heurOk, Bool.and_eq_true]
    exact ⟨⟨hv, hd⟩, ih b hfs hb hh⟩
  | case3 d fs hne ih =>
    intro b ha hb hh
    have hfhead : headNotHeur fs = true := by
      cases fs with
      | nil => rfl
      | cons f fs2 =>
        cases f with
        | out d2 => rfl
        | awaiting v s =>
          cases s with
          | true => rfl
          | false => exact absurd rfl (hne v fs2)
    rw [heurOk_out_cons _ _ hfhead] at ha
    rw [List.cons_append,
      heurOk_out_cons _ _ (headNotHeur_append fs b hfhead hh)]
    exact ih b ha hb hh
  | case4 v fs ih =>
    intro b ha hb hh
    rw [heurOk] at ha
    simp only [Bool.and_eq_true] at ha
    simp only [List.cons_append, heurOk, Bool.and_eq_true]
    exact ⟨ha.1, ih b ha.2 hb hh⟩
  | case5 v fs =>
    intro b ha
    rw [heurOk] at ha
    exact absurd ha (by simp)

/-- Every `awaiting_input` frame in the list carries value `true`. -/
def awaitAllTrue (fs : List OutFrame) : Bool :=
  fs.all fun f =>
    match f with
    | .awaiting v _ => v
    | .out _ => true

theorem emitFrames_wf (emit : List Char) :
    heurOk (emitFrames emit) = true ∧ headNotHeur (emitFrames emit) = true ∧
    awaitAllTrue (emitFrames emit) = true := by
  rw [emitFrames]
  split
  · exact ⟨rfl, rfl, rfl⟩
  · split
    · exact ⟨rfl, rfl, rfl⟩
    · rename_i hne hnl
      refine ⟨?_, rfl, rfl⟩
      simp [heurOk, hnl]

theorem processText_wf (n : Nat) : ∀ t : List Char, t.length ≤ n →
    heurOk (processText t).1 = true ∧ headNotHeur (processText t).1 = true ∧
    awaitAllTrue (processText t).1 = true := by
  induction n with
  | zero =>
    intro t h
    have : t = [] := List.length_eq_zero.mp (Nat.le_zero.mp h)
    subst this
    have hpt : processText [] = ([], []) := processTextGo_nil 0
    rw [hpt]
    exact ⟨rfl, rfl, rfl⟩
  | succ n ih =>
    intro t h
    cases he : findOcc t with
    | none =>
      rw [processText_none he]
      exact emitFrames_wf _
    | some j =>
      have hs := sentinel_length
      have hj : j + sentinel.length ≤ t.length := by
        have hd := (findOcc_some he).1.length_le
        rw [List.length_drop] at hd
        omega
      rw [processText_some he]
      obtain ⟨ih1, ih2, ih3⟩ := ih (t.drop (j + sentinel.length))
        (by rw [List.length_drop]; omega)
      obtain ⟨he1, he2, he3⟩ := emitFrames_wf (t.take j)
      refine ⟨?_, ?_, ?_⟩
      · refine heurOk_append _ _ he1 ?_ rfl
        simpa [heurOk] using ih1
      · exact headNotHeur_append _ _ he2 rfl
      · simp only [awaitAllTrue, List.all_append, List.all_cons,
          Bool.and_eq_true] at *
        exact ⟨he3, ⟨trivial, ih3⟩⟩

theorem pumpGo_headNotHeur : ∀ (cs : List (List Char)) (carry : List Char),
    headNotHeur (pumpGo carry cs) = true := by
  intro cs
  induction cs with
  | nil =>
    intro carry
    rw [pumpGo]
    split
    · rfl
    · rfl
  | cons c cs2 ih =>
    intro carry
    rw [pumpGo]
    obtain ⟨g1, g2, g3⟩ := processText_wf (carry ++ c).length _ (le_refl _)
    exact headNotHeur_append _ _ g2 (ih _)

theorem pumpGo_wf (cs : List (List Char)) : ∀ carry : List Char,
    heurOk (pumpGo carry cs) = true ∧ awaitAllTrue (pumpGo carry cs) = true := by
  induction cs with
  | nil =>
    intro carry
    rw [pumpGo]
    split
    · exact ⟨rfl, rfl⟩
    · exact ⟨rfl, rfl⟩
  | cons c cs ih =>
    intro carry
    rw [pumpGo]
    obtain ⟨h1, h2, h3⟩ := processText_wf (carry ++ c).length (carry ++ c) (le_refl _)
    obtain ⟨ih1, ih2⟩ := ih (processText (carry ++ c)).2
    constructor
    · exact heurOk_append _ _ h1 ih1 (pumpGo_headNotHeur _ _)
    · simp only [awaitAllTrue, List.all_append, Bool.and_eq_true] at *
      exact ⟨h3, ih2⟩

/-! ## Claim C1, C2 and C9 theorems -/

/-- The values of the `awaiting_input` frames of a frame list, in order. -/
def awaitValues : List OutFrame → List Bool
  | [] => []
  | .awaiting v _ :: fs => v :: awaitValues fs
  | .out _ :: fs => awaitValues fs

/-- Does a value sequence strictly alternate? -/
def strictlyAlternating : List Bool → Bool
  | [] => true
  | [_] => true
  | a :: b :: rest => !(a == b) && strictlyAlternating (b :: rest)

/-- Byte chunks whose boundary splits a two-byte UTF-8 sequence: the first
chunk ends with the lone lead byte `0xC3`. -/
def c1Chunk1 : List Nat := ("<<<OC_".data.map Char.toNat) ++ [0xC3]

/-- Second byte chunk of the C1 counterexample. -/
def c1Chunk2 : List Nat := "AWAIT>>>".data.map Char.toNat

/-- C1 (counterexample): the claim quantifies over byte streams and byte
chunkings, but `pump_async` decodes each chunk with `errors="ignore"`
before scanning.  For the byte stream `"<<<OC_" 0xC3 "AWAIT>>>"` split
after the `0xC3`, the decoder drops the dangling lead byte, the carry then
completes a sentinel that does not occur in the byte stream, and the
byte `0xC3` is lost from the payload: one sentinel edge is emitted though
the stream contains zero sentinel occurrences. -/
theorem c1_bytes_counterexample :
    occCountBytes sentinelBytes (c1Chunk1 ++ c1Chunk2) = 0 ∧
    sentCount (pumpBytes [c1Chunk1, c1Chunk2]) = 1 ∧
    payload (pumpBytes [c1Chunk1, c1Chunk2]) = [] ∧
    c1Chunk1.length ≤ 1024 ∧ c1Chunk2.length ≤ 1024 ∧
    ¬ (sentCount (pumpBytes [c1Chunk1, c1Chunk2]) =
       occCountBytes sentinelBytes (c1Chunk1 ++ c1Chunk2)) := by decide

/-- C1 (amended): for every decoded character stream and every partition
of it into chunks, the concatenated `out` payload emitted by the pump is
the stream with its (non-overlapping) sentinel occurrences removed by a
single left-to-right scan, and exactly one sentinel-triggered
`awaiting_input=true` edge is emitted per sentinel occurrence of the
stream — independent of the chunking, sentinels spanning chunk boundaries
being resolved by the rolling carry. -/
theorem c1_pump_chunk_invariance (chunks : List (List Char)) :
    payload (pump chunks) = (scrub chunks.flatten).1 ∧
    sentCount (pump chunks) = occCount chunks.flatten := by
  obtain ⟨h1, h2⟩ := pump_spec chunks
  refine ⟨h1, ?_⟩
  rw [h2, occCount_eq_scrub chunks.flatten.length _ (le_refl _)]

/-- C2 (counterexample): a prompt followed by the sentinel — exactly the
stream produced by `input("? ")` under the bootstrap — makes the pump
emit a heuristic `awaiting_input=true` (no trailing newline, line 2293)
immediately followed by the sentinel-triggered `awaiting_input=true`
(line 2295): two consecutive `true` edges, so the `awaiting_input`
sequence does not strictly alternate. -/
theorem c2_consecutive_true_edges :
    awaitValues (pump [("? ").data ++ sentinel]) = [true, true] ∧
    strictlyAlternating (awaitValues (pump [("? ").data ++ sentinel])) = false := by
  decide

/-- C2 (amended): every `awaiting_input` frame the stdout pump emits
carries value `true`, and every heuristic edge immediately follows an
`out` frame whose data does not end with a newline; `false` is emitted
only by the input-forwarding branch of the session loop (ws_routes.py
2350-2354), not by the pump, and consecutive equal values can occur, so
the sequence need not strictly alternate. -/
theorem c2_await_edges_wf (chunks : List (List Char)) :
    awaitAllTrue (pump chunks) = true ∧ heurOk (pump chunks) = true := by
  obtain ⟨h1, h2⟩ := pumpGo_wf chunks []
  exact ⟨h2, h1⟩

/-- C9 (counterexample): the sentinel `<<<OC_AWAIT>>>` is 14 bytes long,
not 10 as the claim states. -/
theorem c9_sentinel_not_ten_bytes :
    sentinelBytes.length = 14 ∧ ¬ sentinelBytes.length = 10 := by decide

/-- C9 (amended): the prompt sentinel is the fixed 14-byte (all-ASCII)
marker whose exact bytes are `<<<OC_AWAIT>>>`; the server strips it from
stdout and emits exactly one sentinel-triggered `awaiting_input=true`
edge for it. -/
theorem c9_sentinel_value :
    SENTINEL = "<<<OC_AWAIT>>>" ∧ sentinelBytes.length = 14 ∧
    sentinel.length = 14 ∧
    pump [sentinel] = [.awaiting true true] ∧
    payload (pump [sentinel]) = [] := by decide

/-! ## Session creation and validation (run_routes.py 12-106, 509-604) -/

/-- A submitted file (run_routes.py `FileSpec`). -/
structure FileSpec where
  name : String
  content : String
deriving DecidableEq, Repr

/-- A requested breakpoint (run_routes.py `BreakpointSpec`). -/
structure BreakpointSpec where
  file : String
  line : Int
deriving DecidableEq, Repr

/-- A create-session request (run_routes.py `RunReq`; an absent optional
`mode`/`lang` is modelled as the empty string, which Python's `or`
replaces just like `None`). -/
structure RunReq where
  lang : String
  entry : String
  args : List String
  files : List FileSpec
  mode : String
  breakpoints : List BreakpointSpec
deriving Repr

/-- Python `str.strip` whitespace. -/
def isPySpace (c : Char) : Bool :=
  c = ' ' || c = '\t' || c = '\n' || c = '\r' || c = '\x0B' || c = '\x0C'

/-- Python `str.strip()`. -/
def pyStrip (s : List Char) : List Char :=
  ((s.dropWhile isPySpace).reverse.dropWhile isPySpace).reverse

/-- Python `str.lower()` (ASCII as used here). -/
def pyLower (s : List Char) : List Char := s.map Char.toLower

/-- Is `c` in the class `[A-Za-z0-9._-]`? -/
def isSafeChar (c : Char) : Bool :=
  ('A' ≤ c && c ≤ 'Z') || ('a' ≤ c && c ≤ 'z') || ('0' ≤ c && c ≤ '9') ||
    c = '.' || c = '_' || c = '-'

/-- The spec's safe-name rule under full-match semantics: the whole name
is one to 128 characters of the class.  Written from the spec's words
(`^[A-Za-z0-9._-]{1,128}$`) for comparison with the code's check. -/
def safeNameFullMatch (s : String) : Bool :=
  decide (1 ≤ s.data.length) && decide (s.data.length ≤ 128) &&
    s.data.all isSafeChar

/-- The code's check `SAFE_NAME.match(name)` (run_routes.py 33-38).
Python's `$` also matches just before a newline that ends the string, so
`re.match` additionally accepts a name with a single trailing newline
whose body matches. -/
def isSafeName (s : String) : Bool :=
  safeNameFullMatch s ||
    ((s.data.getLast? = some '\n') && safeNameFullMatch (String.mk s.data.dropLast))

/-- `ALLOWED_LANGS` (run_routes.py line 34). -/
def ALLOWED_LANGS : List String := ["python", "javascript", "java", "cpp", "go"]

/-- `ALLOWED_MODES` (run_routes.py line 35). -/
def ALLOWED_MODES : List String := ["run", "debug"]

/-- `(req.mode or "run").strip().lower()` (run_routes.py line 42). -/
def normMode (req : RunReq) : String :=
  String.mk (pyLower (pyStrip (if req.mode = "" then "run" else req.mode).data))

/-- `(req.lang or "").strip().lower()` (run_routes.py line 48). -/
def normLang (req : RunReq) : String :=
  String.mk (pyLower (pyStrip req.lang.data))

/-- `_validate_request` (run_routes.py 40-82): the sequence of checks, in
source order, each raising a 400 with the given detail; returns the
detail of the first failing check. -/
def validateRequest (req : RunReq) : Option String :=
  if normMode req ∉ ALLOWED_MODES then
    some ("unsupported mode: " ++ req.mode ++ ". Choose one of: debug, run")
  else if normLang req ∉ ALLOWED_LANGS then
    some ("unsupported language: " ++ req.lang ++
      ". Choose one of: cpp, go, java, javascript, python")
  else
    match req.files.find? (fun f => ! isSafeName f.name) with
    | some f => some ("invalid filename: " ++ f.name)
    | none =>
      if ! isSafeName req.entry then
        some ("invalid entry: " ++ req.entry)
      else if ! req.files.any (fun f => f.name = req.entry) then
        some ("entry file not found: " ++ req.entry)
      else if 50 < req.files.length then
        some "too many files (>50)"
      else
        match req.files.find? (fun f => 200000 < f.content.utf8ByteSize) with
        | some f => some ("file too large: " ++ f.name)
        | none =>
          match req.breakpoints.find?
              (fun bp => ! isSafeName bp.file || bp.line ≤ 0) with
          | some bp =>
            if ! isSafeName bp.file then
              some ("invalid breakpoint file: " ++ bp.file)
            else
              some ("invalid breakpoint line: " ++ toString bp.line)
          | none => none

/-- An observable side effect of the create endpoint. -/
inductive CreateEffect where
  | workdirCreated
  | sessionRegistered
deriving DecidableEq, Repr

/-- Outcome of `create_run`. -/
structure CreateResult where
  effects : List CreateEffect
  outcome : Except (Nat × String) Unit
deriving Repr

/-- `create_run` (run_routes.py 509-604): `_validate_request` runs before
any filesystem or registry action, so a validation failure produces a 400
response with no effects.  On success, debug mode eagerly materializes a
workdir (`_prepare_*`) and registers the session; run mode only registers
the session (its workdir is created at websocket attach).  The
`_prepare_*` failure paths (500, workdir removed again) are outside the
validation claims and are not modelled. -/
def createRun (req : RunReq) : CreateResult :=
  match validateRequest req with
  | some d => ⟨[], .error (400, d)⟩
  | none =>
    if normMode req = "debug" then
      ⟨[.workdirCreated, .sessionRegistered], .ok ()⟩
    else
      ⟨[.sessionRegistered], .ok ()⟩

theorem validate_none_sound (req : RunReq) (hv : validateRequest req = none) :
    (∀ f ∈ req.files, isSafeName f.name = true) ∧
    isSafeName req.entry = true ∧
    req.files.length ≤ 50 ∧
    (∀ f ∈ req.files, f.content.utf8ByteSize ≤ 200000) ∧
    (∀ bp ∈ req.breakpoints, isSafeName bp.file = true ∧ 0 < bp.line) ∧
    normLang req ∈ ALLOWED_LANGS ∧ normMode req ∈ ALLOWED_MODES := by
  rw [validateRequest] at hv
  split at hv
  · exact absurd hv (by simp)
  · split at hv
    · exact absurd hv (by simp)
    · rename_i hmode hlang
      split at hv
      · exact absurd hv (by simp)
      · rename_i hfind
        split at hv
        · exact absurd hv (by simp)
        · split at hv
          · exact absurd hv (by simp)
          · split at hv
            · exact absurd hv (by simp)
            · rename_i hentry hmem hcount
              split at hv
              · exact absurd hv (by simp)
              · rename_i hsize
                split at hv
                · split at hv
                  · exact absurd hv (by simp)
                  · exact absurd hv (by simp)
                · rename_i hbp
                  refine ⟨?_, ?_, ?_, ?_, ?_, ?_, ?_⟩
                  · intro f hf
                    have := List.find?_eq_none.mp hfind f hf
                    simpa using this
                  · simpa using hentry
                  · omega
                  · intro f hf
                    have := List.find?_eq_none.mp hsize f hf
                    simpa using this
                  · intro bp hbpm
                    have := List.find?_eq_none.mp hbp bp hbpm
                    simp at this
                    exact ⟨this.1, by omega⟩
                  · simpa using hlang
                  · simpa using hmode

/-- C4 (counterexample): the filename and entry `"a\n"` fail the spec's
regex `^[A-Za-z0-9._-]{1,128}$` under full-match semantics, but the code
checks it with Python `re.match`, whose `$` also matches before a single
trailing newline — so the request is accepted, a session is registered,
and no 400 is returned. -/
theorem c4_trailing_newline_counterexample :
    safeNameFullMatch "a\n" = false ∧
    createRun { lang := "python", entry := "a\n", args := [],
                files := [⟨"a\n", "print(1)"⟩], mode := "run",
                breakpoints := [] } =
      ⟨[.sessionRegistered], .ok ()⟩ := by
  refine ⟨by decide, ?_⟩
  rfl

/-- C4 (amended): if any filename or the entry fails the code's safe-name
check (the spec regex with Python `re.match`'s tolerance for one trailing
newline), or more than 50 files are supplied, or a file's UTF-8 content
exceeds 200000 bytes, or a breakpoint has line ≤ 0, or the normalized
language or mode is unsupported, then `create_run` fails with status 400
and the corresponding single-string detail, with no workdir materialized
and no session registered. -/
theorem c4_validation_rejects (req : RunReq)
    (h : (∃ f ∈ req.files, isSafeName f.name = false) ∨
         isSafeName req.entry = false ∨
         50 < req.files.length ∨
         (∃ f ∈ req.files, 200000 < f.content.utf8ByteSize) ∨
         (∃ bp ∈ req.breakpoints, bp.line ≤ 0) ∨
         normLang req ∉ ALLOWED_LANGS ∨
         normMode req ∉ ALLOWED_MODES) :
    ∃ d : String, createRun req = ⟨[], .error (400, d)⟩ := by
  cases hv : validateRequest req with
  | some d =>
    exact ⟨d, by rw [createRun, hv]⟩
  | none =>
    exfalso
    obtain ⟨hfiles, hentry, hcount, hsizes, hbps, hlang, hmode⟩ :=
      validate_none_sound req hv
    rcases h with ⟨f, hf, hbad⟩ | h | h | ⟨f, hf, hbad⟩ | ⟨bp, hbp, hbad⟩ | h | h
    · rw [hfiles f hf] at hbad; exact absurd hbad (by simp)
    · rw [hentry] at h; exact absurd h (by simp)
    · omega
    · exact absurd (hsizes f hf) (by omega)
    · exact absurd (hbps bp hbp).2 (by omega)
    · exact h hlang
    · exact h hmode

/-- C4 (witness): a request whose only flaw is a breakpoint at line 0 is
rejected with a 400 and no effects. -/
theorem c4_validation_rejects_witness :
    (∃ bp ∈ [(⟨"m.py", 0⟩ : BreakpointSpec)], bp.line ≤ 0) ∧
    ∃ d : String,
      createRun { lang := "python", entry := "m.py", args := [],
                  files := [⟨"m.py", "x = 1"⟩], mode := "run",
                  breakpoints := [⟨"m.py", 0⟩] } =
        ⟨[], .error (400, d)⟩ := by
  refine ⟨⟨⟨"m.py", 0⟩, by simp, by norm_num⟩, ?_⟩
  exact c4_validation_rejects _
    (Or.inr (Or.inr (Or.inr (Or.inr (Or.inl ⟨⟨"m.py", 0⟩, by simp, by norm_num⟩)))))

/-! ## File materialization: `_write_files` and `textwrap.dedent`
(run_routes.py 102-106, ws_routes.py 52-56)

Both copies of `_write_files` write `textwrap.dedent(f["content"])`.  We
embed CPython's `textwrap.dedent`: lines consisting solely of spaces and
tabs are emptied, the longest common prefix of the leading whitespace of
the remaining lines is the margin, and the margin is removed from the
start of every line that carries it. -/

/-- Is `c` a space or a tab (the class `[ \t]` of `textwrap`'s regexes)? -/
def isIndentChar (c : Char) : Bool := c = ' ' || c = '\t'

/-- Split a text on newlines; always returns at least one line. -/
def splitLines : List Char → List (List Char)
  | [] => [[]]
  | c :: rest =>
    if c = '\n' then [] :: splitLines rest
    else
      match splitLines rest with
      | [] => [[c]]
      | l :: ls => (c :: l) :: ls

/-- Join lines with newlines (inverse of `splitLines`). -/
def joinLines : List (List Char) → List Char
  | [] => []
  | [l] => l
  | l :: ls => l ++ '\n' :: joinLines ls

/-- `_whitespace_only_re.sub('', text)`: a line made only of spaces and
tabs is replaced by the empty line. -/
def blankToEmpty (l : List Char) : List Char :=
  if !l.isEmpty && l.all isIndentChar then [] else l

/-- The leading whitespace of a line (`_leading_whitespace_re` capture). -/
def indentOf (l : List Char) : List Char := l.takeWhile isIndentChar

/-- Longest common prefix of two character lists (the effect of
`textwrap.dedent`'s margin-merging loop). -/
def lcp : List Char → List Char → List Char
  | a :: as, b :: bs => if a = b then a :: lcp as bs else []
  | _, _ => []

/-- The margin of a list of (already blank-normalized) lines: the longest
common prefix of the indents of the nonempty lines, if any. -/
def marginOf (lines : List (List Char)) : Option (List Char) :=
  match (lines.filter (fun l => !l.isEmpty)).map indentOf with
  | [] => none
  | i :: is => some (is.foldl lcp i)

/-- Remove the margin from a line that starts with it
(`re.sub(r'(?m)^' + margin, '', text)`). -/
def stripMargin (m : List Char) (l : List Char) : List Char :=
  if m <+: l then l.drop m.length else l

/-- CPython `textwrap.dedent`. -/
def dedent (t : List Char) : List Char :=
  let lines := (splitLines t).map blankToEmpty
  match marginOf lines with
  | none => joinLines lines
  | some m =>
    if m = [] then joinLines lines
    else joinLines (lines.map (stripMargin m))

/-- `_write_files` (run_routes.py 102-106 and ws_routes.py 52-56): each
submitted file is materialized as `textwrap.dedent` of its content. -/
def writeFiles (files : List FileSpec) : List (String × List Char) :=
  files.map (fun f => (f.name, dedent f.content.data))

/-! ### Lemmas about `splitLines`, `joinLines`, `lcp` and margins -/

theorem splitLines_ne_nil (t : List Char) : splitLines t ≠ [] := by
  cases t with
  | nil => simp [splitLines]
  | cons c rest =>
    rw [splitLines]
    split
    · simp
    · cases hsp : splitLines rest <;> simp

theorem joinLines_cons (l : List Char) (ls : List (List Char)) (h : ls ≠ []) :
    joinLines (l :: ls) = l ++ '\n' :: joinLines ls := by
  cases ls with
  | nil => exact absurd rfl h
  | cons l2 ls2 => rfl

theorem join_splitLines : ∀ t : List Char, joinLines (splitLines t) = t := by
  intro t
  induction t with
  | nil => rfl
  | cons c rest ih =>
    rw [splitLines]
    by_cases hc : c = '\n'
    · rw [if_pos hc, joinLines_cons _ _ (splitLines_ne_nil rest), ih, hc]
      rfl
    · rw [if_neg hc]
      cases hsp : splitLines rest with
      | nil => exact absurd hsp (splitLines_ne_nil rest)
      | cons l0 ls0 =>
        rw [hsp] at ih
        cases ls0 with
        | nil =>
          show c :: l0 = c :: rest
          rw [show l0 = rest from ih]
        | cons l1 ls1 =>
          rw [joinLines_cons (c :: l0) _ (by simp)]
          rw [joinLines_cons l0 _ (by simp)] at ih
          rw [List.cons_append, ih]

theorem mem_splitLines {c : Char} : ∀ {t : List Char}, c ∈ t → c ≠ '\n' →
    ∃ l ∈ splitLines t, c ∈ l := by
  intro t
  induction t with
  | nil => intro h; simp at h
  | cons d rest ih =>
    intro hmem hcn
    rw [splitLines]
    by_cases hd : d = '\n'
    · rw [if_pos hd]
      have hcr : c ∈ rest := by
        rcases List.mem_cons.mp hmem with he | hr
        · exact absurd (he.trans hd) hcn
        · exact hr
      obtain ⟨l, hl, hcl⟩ := ih hcr hcn
      exact ⟨l, List.mem_cons_of_mem _ hl, hcl⟩
    · rw [if_neg hd]
      cases hsp : splitLines rest with
      | nil => exact absurd hsp (splitLines_ne_nil rest)
      | cons l0 ls0 =>
        rcases List.mem_cons.mp hmem with he | hr
        · exact ⟨d :: l0, by simp, by simp [he]⟩
        · obtain ⟨l, hl, hcl⟩ := ih hr hcn
          rw [hsp] at hl
          rcases List.mem_cons.mp hl with hl0 | hls
          · exact ⟨d :: l0, by simp, by simp [hl0 ▸ hcl]⟩
          · exact ⟨l, by simp [hls], hcl⟩

theorem lcp_nil_left (b : List Char) : lcp [] b = [] := by
  cases b <;> rfl

theorem lcp_nil_right (a : List Char) : lcp a [] = [] := by
  cases a <;> rfl

theorem lcp_cons_cons (x y : Char) (as bs : List Char) :
    lcp (x :: as) (y :: bs) = if x = y then x :: lcp as bs else [] := rfl

theorem lcp_prefix_left : ∀ a b : List Char, lcp a b <+: a := by
  intro a
  induction a with
  | nil =>
    intro b
    rw [lcp_nil_left]
  | cons x as ih =>
    intro b
    cases b with
    | nil =>
      rw [lcp_nil_right]
      exact ⟨x :: as, rfl⟩
    | cons y bs =>
      rw [lcp_cons_cons]
      split
      · obtain ⟨u, hu⟩ := ih bs
        exact ⟨u, by rw [List.cons_append, hu]⟩
      · exact ⟨x :: as, rfl⟩

theorem lcp_prefix_right : ∀ a b : List Char, lcp a b <+: b := by
  intro a
  induction a with
  | nil =>
    intro b
    rw [lcp_nil_left]
    exact ⟨b, rfl⟩
  | cons x as ih =>
    intro b
    cases b with
    | nil =>
      rw [lcp_nil_right]
    | cons y bs =>
      rw [lcp_cons_cons]
      split
      · rename_i he
        obtain ⟨u, hu⟩ := ih bs
        exact ⟨u, by rw [List.cons_append, hu, he]⟩
      · exact ⟨y :: bs, rfl⟩

theorem foldl_lcp_prefix : ∀ (is : List (List Char)) (i x : List Char),
    x ∈ i :: is → is.foldl lcp i <+: x := by
  intro is
  induction is with
  | nil =>
    intro i x hx
    rw [List.mem_singleton] at hx
    subst hx
    exact ⟨[], List.append_nil _⟩
  | cons j is2 ih =>
    intro i x hx
    rw [List.foldl_cons]
    rcases List.mem_cons.mp hx with he | hx2
    · subst he
      exact (ih (lcp x j) (lcp x j) (by simp)).trans (lcp_prefix_left x j)
    · rcases List.mem_cons.mp hx2 with he | hx3
      · subst he
        exact (ih (lcp i x) (lcp i x) (by simp)).trans (lcp_prefix_right i x)
      · exact ih (lcp i j) x (by simp [hx3])

theorem lcp_head {a b : List Char} {c : Char} (ha : a.head? = some c)
    (hb : b.head? = some c) : (lcp a b).head? = some c := by
  cases a with
  | nil => simp at ha
  | cons x as =>
    cases b with
    | nil => simp at hb
    | cons y bs =>
      simp at ha hb
      rw [lcp, if_pos (ha.trans hb.symm)]
      simpa using ha

theorem foldl_lcp_head : ∀ (is : List (List Char)) (i : List Char) (c : Char),
    i.head? = some c → (∀ x ∈ is, x.head? = some c) →
    (is.foldl lcp i).head? = some c := by
  intro is
  induction is with
  | nil => intro i c hi _; simpa using hi
  | cons j is2 ih =>
    intro i c hi hall
    rw [List.foldl_cons]
    exact ih _ c (lcp_head hi (hall j (by simp))) (fun x hx => hall x (by simp [hx]))

/-! ### Length bounds for `joinLines` over mapped lines -/

theorem joinLines_map_le (g : List Char → List Char) :
    ∀ ls : List (List Char), (∀ l ∈ ls, (g l).length ≤ l.length) →
    (joinLines (ls.map g)).length ≤ (joinLines ls).length := by
  intro ls
  induction ls with
  | nil => intro _; simp [joinLines]
  | cons l ls2 ih =>
    intro h
    cases ls2 with
    | nil =>
      simpa [joinLines] using h l (by simp)
    | cons l2 ls3 =>
      rw [List.map_cons, joinLines_cons _ _ (by simp),
        joinLines_cons _ _ (by simp)]
      simp only [List.length_append, List.length_cons]
      have h1 := h l (by simp)
      have h2 := ih (fun x hx => h x (by simp [hx]))
      omega

theorem joinLines_map_lt (g : List Char → List Char) :
    ∀ ls : List (List Char), (∀ l ∈ ls, (g l).length ≤ l.length) →
    ∀ l0 ∈ ls, (g l0).length < l0.length →
    (joinLines (ls.map g)).length < (joinLines ls).length := by
  intro ls
  induction ls with
  | nil => intro _ l0 h0; simp at h0
  | cons l ls2 ih =>
    intro h l0 hl0 hst
    cases ls2 with
    | nil =>
      simp at hl0
      subst hl0
      simpa [joinLines] using hst
    | cons l2 ls3 =>
      rw [List.map_cons, joinLines_cons _ _ (by simp),
        joinLines_cons _ _ (by simp)]
      simp only [List.length_append, List.length_cons]
      rcases List.mem_cons.mp hl0 with he | hmem
      · subst he
        have h2 := joinLines_map_le g (l2 :: ls3) (fun x hx => h x (by simp [hx]))
        omega
      · have h1 := h l (by simp)
        have h2 := ih (fun x hx => h x (by simp [hx])) l0 hmem hst
        omega

theorem blankToEmpty_length_le (l : List Char) :
    (blankToEmpty l).length ≤ l.length := by
  rw [blankToEmpty]
  split
  · simp
  · exact le_refl _

theorem stripMargin_length_le (m l : List Char) :
    (stripMargin m l).length ≤ l.length := by
  rw [stripMargin]
  split
  · rw [List.length_drop]; omega
  · exact le_refl _

theorem stripMargin_length_lt (m l : List Char) (hm : m ≠ []) (hp : m <+: l) :
    (stripMargin m l).length < l.length := by
  rw [stripMargin, if_pos hp, List.length_drop]
  have h1 := hp.length_le
  have hm0 : 0 < m.length := List.length_pos.mpr hm
  have hl0 : 0 < l.length := by omega
  omega

/-- C10: both `_write_files` implementations materialize
`textwrap.dedent(content)` rather than the submitted bytes, so any
content whose nonempty lines all start with a space and which contains a
printable character is written strictly shorter than — hence not
byte-for-byte equal to — what the client submitted. -/
theorem c10_write_files_dedent (files : List FileSpec) (t : List Char)
    (h1 : ∀ l ∈ splitLines t, l ≠ [] → l.head? = some ' ')
    (h2 : ∃ c ∈ t, isIndentChar c = false ∧ c ≠ '\n') :
    writeFiles files = files.map (fun f => (f.name, dedent f.content.data)) ∧
    (dedent t).length < t.length ∧ dedent t ≠ t := by
  refine ⟨rfl, ?_⟩
  obtain ⟨c, hct, hcw, hcn⟩ := h2
  obtain ⟨l, hlmem, hcl⟩ := mem_splitLines hct hcn
  have hlne : l ≠ [] := List.ne_nil_of_mem hcl
  have hlnw : ¬ (l.all isIndentChar = true) := by
    intro hall
    rw [List.all_eq_true] at hall
    rw [hall c hcl] at hcw
    exact absurd hcw (by simp)
  have hble : blankToEmpty l = l := by
    rw [blankToEmpty, if_neg]
    simp only [Bool.and_eq_true, not_and]
    intro _
    exact fun h => hlnw h
  have hl1 : l ∈ (splitLines t).map blankToEmpty :=
    List.mem_map.mpr ⟨l, hlmem, hble⟩
  have hlf : l ∈ ((splitLines t).map blankToEmpty).filter (fun x => !x.isEmpty) := by
    rw [List.mem_filter]
    exact ⟨hl1, by simp [hlne]⟩
  have hind : ∀ x ∈ (((splitLines t).map blankToEmpty).filter
      (fun x => !x.isEmpty)).map indentOf, x.head? = some ' ' := by
    intro x hx
    obtain ⟨l2, hl2, hx2⟩ := List.mem_map.mp hx
    obtain ⟨hl2m, hl2ne⟩ := List.mem_filter.mp hl2
    obtain ⟨l0, hl0, hbl⟩ := List.mem_map.mp hl2m
    have hl2eq : l2 = l0 := by
      rw [blankToEmpty] at hbl
      split at hbl
      · rw [← hbl] at hl2ne; simp at hl2ne
      · exact hbl.symm
    subst hl2eq
    have hl2nil : l2 ≠ [] := by
      intro h0
      rw [h0] at hl2ne
      simp at hl2ne
    have hhead := h1 l2 hl0 hl2nil
    cases l2 with
    | nil => exact absurd rfl hl2nil
    | cons c0 tl =>
      simp only [List.head?_cons, Option.some.injEq] at hhead
      subst hhead
      rw [← hx2, indentOf, List.takeWhile_cons, if_pos (by rfl)]
      rfl
  cases hmap : (((splitLines t).map blankToEmpty).filter
      (fun x => !x.isEmpty)).map indentOf with
  | nil =>
    exfalso
    have hmem2 := List.mem_map_of_mem indentOf hlf
    rw [hmap] at hmem2
    simp at hmem2
  | cons i is =>
    have hmargin : marginOf ((splitLines t).map blankToEmpty) =
        some (is.foldl lcp i) := by
      rw [marginOf, hmap]
    have hmhead : (is.foldl lcp i).head? = some ' ' :=
      foldl_lcp_head is i ' ' (hind i (by rw [hmap]; simp))
        (fun x hx => hind x (by rw [hmap]; simp [hx]))
    have hmne : is.foldl lcp i ≠ [] := by
      intro h0
      rw [h0] at hmhead
      simp at hmhead
    have hmpre : is.foldl lcp i <+: l := by
      have hp1 : is.foldl lcp i <+: indentOf l := by
        apply foldl_lcp_prefix is i (indentOf l)
        rw [← hmap]
        exact List.mem_map_of_mem indentOf hlf
      refine hp1.trans ⟨l.dropWhile isIndentChar, ?_⟩
      rw [indentOf]
      exact List.takeWhile_append_dropWhile _ _
    have hded : dedent t =
        joinLines (((splitLines t).map blankToEmpty).map
          (stripMargin (is.foldl lcp i))) := by
      simp only [dedent]
      rw [hmargin]
      simp only [if_neg hmne]
    have hlt : (joinLines (((splitLines t).map blankToEmpty).map
        (stripMargin (is.foldl lcp i)))).length <
        (joinLines ((splitLines t).map blankToEmpty)).length :=
      joinLines_map_lt _ _ (fun x _ => stripMargin_length_le _ x) l hl1
        (stripMargin_length_lt _ l hmne hmpre)
    have hle : (joinLines ((splitLines t).map blankToEmpty)).length ≤
        (joinLines (splitLines t)).length :=
      joinLines_map_le _ _ (fun x _ => blankToEmpty_length_le x)
    have hjl : (joinLines (splitLines t)).length = t.length := by
      rw [join_splitLines t]
    have hlen : (dedent t).length < t.length := by
      rw [hded]
      omega
    refine ⟨hlen, ?_⟩
    intro heq
    rw [heq] at hlen
    omega

/-- C10 (witness): the uniformly indented two-line file `"    a\n    b"`
is materialized as the strictly shorter `dedent` output, not byte-for-byte. -/
theorem c10_write_files_dedent_witness :
    (∀ l ∈ splitLines ("    a\n    b").data, l ≠ [] → l.head? = some ' ') ∧
    (∃ c ∈ ("    a\n    b").data, isIndentChar c = false ∧ c ≠ '\n') ∧
    (dedent ("    a\n    b").data).length < ("    a\n    b").data.length ∧
    dedent ("    a\n    b").data ≠ ("    a\n    b").data := by
  refine ⟨by decide, by decide, ?_, ?_⟩
  · exact (c10_write_files_dedent [] _ (by decide) (by decide)).2.1
  · exact (c10_write_files_dedent [] _ (by decide) (by decide)).2.2

/-! ## Python debug breakpoint paths (oc_py_debugger.py 115-129 and
ws_routes.py 723-733)

The shim runs inside the container with working directory `/work`
(`docker run -w /work`), so `os.path.abspath` resolves relative paths
against `/work`, and the debugger's `workdir` is
`dirname(abspath(entry)) = /work`. -/

/-- Split a POSIX path on `/`. -/
def splitOnSlash : List Char → List (List Char)
  | [] => [[]]
  | c :: rest =>
    if c = '/' then [] :: splitOnSlash rest
    else
      match splitOnSlash rest with
      | [] => [[c]]
      | l :: ls => (c :: l) :: ls

/-- Normalize the segments of an absolute path (`os.path.normpath`):
drop empty and `.` segments, resolve `..` (which at the root of an
absolute path is dropped). -/
def normSegs (acc : List (List Char)) : List (List Char) → List (List Char)
  | [] => acc.reverse
  | s :: rest =>
    if s = [] ∨ s = ['.'] then normSegs acc rest
    else if s = ['.', '.'] then
      match acc with
      | [] => normSegs [] rest
      | _ :: acc2 => normSegs acc2 rest
    else normSegs (s :: acc) rest

/-- `os.path.abspath(path)` with the container working directory `/work`:
absolute paths are normalized; relative paths are joined under `/work`
first.  Returns the normalized segment list. -/
def absSegs (p : List Char) : List (List Char) :=
  if p.head? = some '/' then normSegs [] (splitOnSlash p)
  else normSegs [] (("work").data :: splitOnSlash p)

/-- The debugger's workdir, as segments: `/work`. -/
def workdirSegs : List (List Char) := [("work").data]

/-- `os.path.commonpath([abspath, workdir]) == workdir`: for two absolute
paths the common path is the longest common segment prefix, so the test
holds exactly when the workdir's segments lead the path's segments. -/
def underWorkdir (segs : List (List Char)) : Bool :=
  decide (workdirSegs <+: segs)

/-- Join segments with `/`. -/
def joinWithSlash : List (List Char) → List Char
  | [] => []
  | [s] => s
  | s :: rest => s ++ '/' :: joinWithSlash rest

/-- `os.path.relpath(abspath, workdir)` for a path under the workdir. -/
def relFromWork (segs : List (List Char)) : List Char :=
  match segs.drop workdirSegs.length with
  | [] => ['.']
  | s :: rest => joinWithSlash (s :: rest)

/-- `OmniDebugger._normalize_path` (oc_py_debugger.py 115-129): empty
paths are returned as is; a path whose absolute form lies under the
workdir is replaced by its workdir-relative form; any other path is
returned unchanged (there is no rejection). -/
def normalizePath (p : List Char) : List Char :=
  if p = [] then p
  else
    let segs := absSegs p
    if underWorkdir segs then relFromWork segs else p

/-- A breakpoint as stored by the websocket layer (raw client strings). -/
structure WsBp where
  file : List Char
  line : Int
deriving DecidableEq, Repr

/-- `add_breakpoint` at the session layer (ws_routes.py 723-728): append
the raw `{file, line}` pair unless already present. -/
def wsAddBp (bps : List WsBp) (bp : WsBp) : List WsBp :=
  if bp ∈ bps then bps else bps ++ [bp]

/-- `remove_breakpoint` at the session layer (ws_routes.py 729-733):
drop entries whose raw file string and line match the target exactly. -/
def wsRemoveBp (bps : List WsBp) (t : WsBp) : List WsBp :=
  bps.filter (fun b => !(b.file = t.file && b.line = t.line))

/-- The shim's breakpoint set after the `set_breakpoints` bulk replace
that `sync_breakpoints` sends (oc_py_debugger.py 168-174): all
breakpoints cleared, then each entry set at its normalized path. -/
def shimBreakSet (bps : List WsBp) : List WsBp :=
  bps.map (fun b => ⟨normalizePath b.file, b.line⟩)

/-- C7 (counterexample): `add_breakpoint {file:"/work/m.py", line:10}`
followed by `remove_breakpoint {file:"m.py", line:10}`.  The shim does
normalize both spellings to the canonical key `m.py`, but the session
layer's removal filters on the raw string, which does not match — so the
subsequent bulk sync still installs the breakpoint: a live breakpoint at
`m.py:10` remains, and the removal does not succeed. -/
theorem c7_mixed_form_remove_fails :
    normalizePath ("/work/m.py").data = ("m.py").data ∧
    normalizePath ("m.py").data = ("m.py").data ∧
    shimBreakSet
        (wsRemoveBp (wsAddBp [] ⟨("/work/m.py").data, 10⟩) ⟨("m.py").data, 10⟩) =
      [⟨("m.py").data, 10⟩] := by decide

/-- C7 (amended): `_normalize_path` maps the absolute in-workdir form and
the workdir-relative form of a file to the same canonical relative key,
so an add/remove pair using the same spelling leaves no live breakpoint;
but the session-layer removal matches the raw spelling, so a remove in a
different spelling than the add leaves the breakpoint live; and a path
outside the workdir is returned unchanged by the normalization — it is
not rejected (installation then falls to bdb's line lookup). -/
theorem c7_path_normalization :
    normalizePath ("/work/m.py").data = ("m.py").data ∧
    normalizePath ("m.py").data = ("m.py").data ∧
    (∀ (bps : List WsBp) (bp : WsBp),
      wsRemoveBp (wsAddBp bps bp) bp = wsRemoveBp bps bp) ∧
    shimBreakSet
        (wsRemoveBp (wsAddBp [] ⟨("/work/m.py").data, 10⟩) ⟨("/work/m.py").data, 10⟩) =
      [] ∧
    normalizePath ("/etc/passwd").data = ("/etc/passwd").data := by
  refine ⟨by decide, by decide, ?_, by decide, by decide⟩
  intro bps bp
  rw [wsAddBp]
  split
  · rfl
  · rw [wsRemoveBp, wsRemoveBp, List.filter_append]
    simp [List.filter]

/-! ## Debug command dispatch (the `debug_cmd` branches of the handlers)

The Python handler (ws_routes.py 712-744), the JS handler (958-1010) and
the Java handler (1217-1249) forward `evaluate` to their backend with no
paused-state check; the live delve block of the Go handler (1529-1570)
likewise queries `print expr` unconditionally.  The only
"not paused" guard in the source (1900-1910) sits in the duplicated
jdb-flavoured block of `_handle_go_debug` that runs only after the first
block's finally has closed the websocket. -/

/-- A uniform client debug command. -/
inductive DbgCmd where
  | cont
  | next
  | stepIn
  | stepOut
  | addBp (bp : WsBp)
  | removeBp (bp : WsBp)
  | evaluate (expr : String)
  | stop
  | other (name : String)
deriving DecidableEq, Repr

/-- An action taken by a dispatch branch. -/
inductive DbgAct where
  | backendJson (ty : String) (expr : String)
  | backendRaw (line : String)
  | frameEvalError (expr msg : String)
  | frameEvalValue (expr : String)
  | frameBreakpoints (which : String)
  | frameErr (msg : String)
  | setExitEvent
  | clearPaused
deriving DecidableEq, Repr

/-- `_handle_python_debug`'s `debug_cmd` dispatch (ws_routes.py 712-744):
each command is translated to one JSON line on the shim's stdin;
`evaluate` is forwarded unconditionally (734-736), with no paused check
— the shim only consumes it at its next stop. -/
def pyDebugDispatch : DbgCmd → List DbgAct
  | .cont => [.backendJson "continue" ""]
  | .next => [.backendJson "step_over" ""]
  | .stepIn => [.backendJson "step_in" ""]
  | .stepOut => [.backendJson "step_out" ""]
  | .addBp _ => [.backendJson "set_breakpoints" "", .frameBreakpoints "added"]
  | .removeBp _ => [.backendJson "set_breakpoints" "", .frameBreakpoints "removed"]
  | .evaluate expr => [.backendJson "evaluate" expr]
  | .stop => [.backendJson "stop" "", .setExitEvent]
  | .other s => [.frameErr ("unknown debug cmd: " ++ s)]

/-- `_handle_java_debug`'s `debug_cmd` dispatch (ws_routes.py 1217-1249):
identical in shape to the Python one; `evaluate` (1239-1241) is forwarded
with no paused check. -/
def javaDebugDispatch : DbgCmd → List DbgAct
  | .cont => [.backendJson "continue" ""]
  | .next => [.backendJson "step_over" ""]
  | .stepIn => [.backendJson "step_in" ""]
  | .stepOut => [.backendJson "step_out" ""]
  | .addBp _ => [.backendJson "set_breakpoints" "", .frameBreakpoints "added"]
  | .removeBp _ => [.backendJson "set_breakpoints" "", .frameBreakpoints "removed"]
  | .evaluate expr => [.backendJson "evaluate" expr]
  | .stop => [.backendJson "stop" "", .setExitEvent]
  | .other s => [.frameErr ("unknown debug cmd: " ++ s)]

/-- The live delve block of `_handle_go_debug` (ws_routes.py 1529-1570):
stepping commands clear the paused event; `evaluate` (1555-1562) runs
`print expr` as a query and reports its output as the value — with no
paused check. -/
def goLiveDispatch : DbgCmd → List DbgAct
  | .cont => [.clearPaused, .backendRaw "continue"]
  | .next => [.clearPaused, .backendRaw "next"]
  | .stepIn => [.clearPaused, .backendRaw "step"]
  | .stepOut => [.clearPaused, .backendRaw "stepout"]
  | .addBp _ => [.backendRaw "break", .frameBreakpoints "added"]
  | .removeBp _ => [.backendRaw "clear", .frameBreakpoints "removed"]
  | .evaluate expr => [.backendRaw ("print " ++ expr), .frameEvalValue expr]
  | .stop => [.backendRaw "quit", .setExitEvent]
  | .other s => [.frameErr ("unknown debug cmd: " ++ s)]

/-- The duplicated jdb-flavoured block inside `_handle_go_debug`
(ws_routes.py 1874-1918), which is only reached after the live block's
finally has closed the websocket: the single occurrence of the
"not paused" guard (1900-1910). -/
def goDeadBlockDispatch (pausedSet : Bool) : DbgCmd → List DbgAct
  | .cont => [.clearPaused, .backendRaw "cont"]
  | .next => [.clearPaused, .backendRaw "next"]
  | .stepIn => [.clearPaused, .backendRaw "step"]
  | .stepOut => [.clearPaused, .backendRaw "step up"]
  | .addBp _ => [.backendRaw "stop at", .frameBreakpoints "added"]
  | .removeBp _ => [.backendRaw "clear", .frameBreakpoints "removed"]
  | .evaluate expr =>
    if !pausedSet then [.frameEvalError expr "not paused"]
    else [.backendRaw ("print " ++ expr), .frameEvalValue expr]
  | .stop => [.backendRaw "quit", .setExitEvent]
  | .other s => [.frameErr ("unknown debug cmd: " ++ s)]

/-- C5 (counterexample): an `evaluate` received while the session is not
paused does not produce `evaluate_result {error: "not paused"}` on the
Python, Java or live Go dispatchers — each forwards the expression to its
backend (the Python shim queues it and evaluates it at the next stop). -/
theorem c5_no_not_paused_guard :
    pyDebugDispatch (.evaluate "x") = [.backendJson "evaluate" "x"] ∧
    .frameEvalError "x" "not paused" ∉ pyDebugDispatch (.evaluate "x") ∧
    javaDebugDispatch (.evaluate "x") = [.backendJson "evaluate" "x"] ∧
    .frameEvalError "x" "not paused" ∉ javaDebugDispatch (.evaluate "x") ∧
    goLiveDispatch (.evaluate "x") =
      [.backendRaw "print x", .frameEvalValue "x"] ∧
    .frameEvalError "x" "not paused" ∉ goLiveDispatch (.evaluate "x") := by
  decide

/-- C5 (amended): only the unreachable jdb-flavoured block of
`_handle_go_debug` answers `evaluate_result {error: "not paused"}` to an
`evaluate` outside the paused state, without touching the backend; every
live dispatcher (Python, Java, live Go) forwards the expression to its
backend unconditionally. -/
theorem c5_evaluate_dispatch (expr : String) :
    goDeadBlockDispatch false (.evaluate expr) =
      [.frameEvalError expr "not paused"] ∧
    (∀ a ∈ goDeadBlockDispatch false (.evaluate expr),
      ∀ s, a ≠ .backendRaw s ∧ ∀ ty e, a ≠ .backendJson ty e) ∧
    pyDebugDispatch (.evaluate expr) = [.backendJson "evaluate" expr] ∧
    javaDebugDispatch (.evaluate expr) = [.backendJson "evaluate" expr] ∧
    goLiveDispatch (.evaluate expr) =
      [.backendRaw ("print " ++ expr), .frameEvalValue expr] := by
  refine ⟨rfl, ?_, rfl, rfl, rfl⟩
  intro a ha s
  simp only [goDeadBlockDispatch, Bool.not_false, if_pos] at ha
  rw [List.mem_singleton] at ha
  subst ha
  exact ⟨by simp, fun ty e => by simp⟩

/-! ## Session registry (run_routes.py 9 and 603; ws_routes.py 2170-2177
and the handlers' close paths) -/

/-- Session lifecycle states used by the handlers. -/
inductive SessState where
  | newSession
  | debugReady
  | closed
deriving DecidableEq, Repr

/-- The registry-relevant part of a session record. -/
structure SessionRec where
  state : SessState
  hasProc : Bool
deriving DecidableEq, Repr

/-- The in-memory `SESSIONS` map (run_routes.py line 9) as an association
list keyed by session id. -/
def Registry : Type := List (String × SessionRec)

/-- `SESSIONS.get(sid)` (ws_routes.py 2174): a lookup — the record is not
removed or reserved. -/
def registryLookup (reg : Registry) (sid : String) : Option SessionRec :=
  (List.find? (fun e => e.1 = sid) reg).map (fun e => e.2)

/-- The admission decision of `ws_run` (ws_routes.py 2170-2177). -/
inductive Admission where
  | rejected (errMsg : String)
  | admitted (rec : SessionRec)
deriving DecidableEq, Repr

/-- `ws_run`'s admission (ws_routes.py 2174-2177): an absent id gets
`err "invalid session_id"` and a close, with no process spawned and no
workdir created; a present id is handled — whatever its state. -/
def wsRunAdmit (reg : Registry) (sid : String) : Admission :=
  match registryLookup reg sid with
  | none => .rejected "invalid session_id"
  | some r => .admitted r

/-- The run-mode close path (ws_routes.py 2379-2392): exit frame, close,
rmtree — the registry is not touched; `SESSIONS` has no `pop` or `del`
anywhere in ws_routes.py. -/
def runCloseRegistry (reg : Registry) (_sid : String) : Registry := reg

/-- The debug handlers' close paths (e.g. ws_routes.py 780-781,
2165-2166): the record is mutated in place (`proc = None`,
`state = "closed"`) but never removed from the map. -/
def debugCloseRegistry (reg : Registry) (sid : String) : Registry :=
  reg.map (fun e => if e.1 = sid then (e.1, ⟨.closed, false⟩) else e)

/-- C6 (counterexample): after the first attachment of `sid1` closes, the
registry still holds the record, and a second attach with the same id is
admitted — it does not fail with "invalid session_id" (in run mode it
would spawn a fresh process over a fresh workdir). -/
theorem c6_second_attach_admitted :
    registryLookup (runCloseRegistry [("sid1", ⟨.newSession, false⟩)] "sid1")
      "sid1" = some ⟨.newSession, false⟩ ∧
    wsRunAdmit (runCloseRegistry [("sid1", ⟨.newSession, false⟩)] "sid1")
      "sid1" = .admitted ⟨.newSession, false⟩ ∧
    wsRunAdmit (debugCloseRegistry [("sid1", ⟨.debugReady, true⟩)] "sid1")
      "sid1" = .admitted ⟨.closed, false⟩ := by decide

/-- C6 (amended): an attach whose id is absent from the registry fails
with an `err "invalid session_id"` and nothing is spawned; but the
registry retains entries after close — the run-mode close path leaves the
map unchanged and the debug close paths only mutate the record in place,
so closed sessions stay in the map and a second attach with the same id
is admitted rather than rejected. -/
theorem c6_registry_retention (reg : Registry) (sid : String)
    (h : registryLookup reg sid = none) :
    wsRunAdmit reg sid = .rejected "invalid session_id" ∧
    runCloseRegistry reg sid = reg ∧
    List.map Prod.fst (debugCloseRegistry reg sid) = List.map Prod.fst reg := by
  refine ⟨?_, rfl, ?_⟩
  · rw [wsRunAdmit, h]
  · rw [debugCloseRegistry, List.map_map]
    congr 1
    funext e
    by_cases he : e.1 = sid
    · simp [he]
    · simp [he]

/-- C6 (witness): the amended statement at the empty registry. -/
theorem c6_registry_retention_witness :
    registryLookup ([] : Registry) "sid1" = none ∧
    wsRunAdmit ([] : Registry) "sid1" = .rejected "invalid session_id" := by
  refine ⟨rfl, (c6_registry_retention [] "sid1" rfl).1⟩

/-! ## Termination paths, cleanup and the watchdog
(ws_run run mode, ws_routes.py 2197-2392; `_handle_go_debug`, 1287-2168)

`_handle_go_debug`'s body is a live delve handler (through the finally at
1577-1613) followed by two further complete handler bodies — a
jdb-flavoured one (1615-1962) and a JSON-shim one (1964-2168) — that
execute after the first finally has already delivered the terminal frame,
closed the socket and removed the workdir. -/

/-- Frames on the wire (the subset the termination claims concern). -/
inductive WireFrame where
  | status (phase : String)
  | errFrame (msg : String)
  | exit (code : Int)
deriving DecidableEq, Repr

/-- Steps of a handler's execution trace. -/
inductive Act where
  | send (f : WireFrame)
  | clientGone
  | closeWs
  | termChild
  | waitChild
  | rmtree
  | raiseExc
deriving DecidableEq, Repr

/-- How an attachment's supervision loop ends. -/
inductive EndCause where
  | childExit
  | clientStop
  | clientDisconnect
deriving DecidableEq, Repr

/-- The run-mode attachment from `status running` onward (ws_routes.py
2242-2392).  On `stop`/`close` the loop sends `status stopping` and
terminates the child (2358-2370); on disconnect it kills the child
(2328-2334, 2373-2378); the finally block waits for the child, attempts
the terminal `exit` frame with the code `proc.wait()` returned, closes
the socket, and removes the workdir (2379-2392). -/
def runTrace (cause : EndCause) (rc : Int) : List Act :=
  [.send (.status "running")] ++
  (match cause with
   | .childExit => []
   | .clientStop => [.send (.status "stopping"), .termChild]
   | .clientDisconnect => [.clientGone, .termChild]) ++
  [.waitChild, .send (.exit rc), .closeWs, .rmtree]

/-- The run-mode path that fails before the loop because the entry file
is missing after materialization (ws_routes.py 2209-2212): fatal `err`,
workdir removed, socket closed. -/
def runEntryNotFoundTrace (entry : String) : List Act :=
  [.send (.errFrame ("entry not found: " ++ entry)), .rmtree, .closeWs]

/-- The run-mode path where spawning raises (ws_routes.py 2214-2228). -/
def runSpawnFailTrace (msg : String) : List Act :=
  [.send (.errFrame msg), .rmtree, .closeWs]

/-- The attachment with an unknown session id (ws_routes.py 2174-2177):
no workdir exists and none is created. -/
def runInvalidSidTrace : List Act :=
  [.send (.errFrame "invalid session_id"), .closeWs]

/-- `_handle_go_debug`'s trace for each loop-end cause, transcribed block
by block.  Scheduling choice: a pump's EOF sets the exit event before the
loop's next receive resolves (any other interleaving only cuts the trace
at the dead blocks, never adding frames).  Block 1 (live, 1318-1613):
status frames, loop, then the finally — kill if still alive, wait,
`exit` frame and close guarded by the websocket state (1593-1609),
rmtree.  Block 2 (dead, 1615-1962): its sends fail on the closed socket,
its `send_raw("run")` raises and is answered by a failing `err` send
(1841-1846), its finally skips the exit frame and close because the
state is DISCONNECTED (1941-1952) but waits and removes the workdir
again (1934-1962).  Block 3 (dead, 1964-2168): sends fail, its finally
attempts the exit frame (2158-2161), then its unguarded
`await ws.close()` (2164) raises on the already-closed socket, so its
trailing rmtree is skipped and the exception propagates. -/
def goDebugTrace (cause : EndCause) (rc : Int) : List Act :=
  -- block 1: live delve handler
  [.send (.status "starting"), .send (.status "running")] ++
  (match cause with
   | .childExit => []
   | .clientStop => []
   | .clientDisconnect => [.clientGone]) ++
  (match cause with
   | .childExit => []
   | _ => [.termChild]) ++
  [.waitChild, .send (.exit rc), .closeWs, .rmtree] ++
  -- block 2: dead jdb-flavoured handler
  [.send (.status "starting"), .send (.errFrame "failed a backend write"),
   .send (.status "running"), .waitChild, .rmtree] ++
  -- block 3: dead JSON-shim handler
  [.send (.status "starting"), .send (.status "running"), .waitChild,
   .send (.exit rc), .raiseExc]

/-- The frames actually delivered: a send is delivered only while the
client is still connected and the server has not closed the socket. -/
def deliveredGo : Bool → Bool → List Act → List WireFrame
  | _, _, [] => []
  | conn, srvOpen, a :: acts =>
    match a with
    | .send f =>
      if conn && srvOpen then f :: deliveredGo conn srvOpen acts
      else deliveredGo conn srvOpen acts
    | .clientGone => deliveredGo false srvOpen acts
    | .closeWs => deliveredGo conn false acts
    | _ => deliveredGo conn srvOpen acts

/-- Frames delivered over a fresh attachment. -/
def deliveredFrames (acts : List Act) : List WireFrame :=
  deliveredGo true true acts

/-- Is a frame terminal in the sense of the claim (`exit {code}`)? -/
def isTerminalFrame : WireFrame → Bool
  | .exit _ => true
  | _ => false

/-- Count of terminal frames in a frame list. -/
def terminalCount (fs : List WireFrame) : Nat :=
  (fs.filter isTerminalFrame).length

/-- C3 (counterexample): on the ordinary go-debug termination path (child
exited, rc 0) the cleanup sequence runs twice — the workdir removal and
the child wait each execute twice, a third block then raises on its
duplicated close — contradicting "no execution path ... runs the cleanup
sequence twice" (a single delivered terminal frame is preserved only by
the state guard and the failing duplicate sends). -/
theorem c3_go_debug_cleanup_runs_twice :
    2 ≤ (goDebugTrace .childExit 0).count .rmtree ∧
    3 ≤ (goDebugTrace .childExit 0).count .waitChild ∧
    .raiseExc ∈ goDebugTrace .childExit 0 ∧
    terminalCount (deliveredFrames (goDebugTrace .childExit 0)) = 1 := by
  decide

/-- C3 (amended): on every termination path of the run-mode attachment
and of the go-debug attachment, at most one terminal frame is delivered —
exactly one while the client is connected, none after a client disconnect
(the attempt fails on the dead socket) — and the workdir is removed; the
pre-loop failure paths deliver exactly one fatal `err` then close; but
the go-debug handler's cleanup sequence executes twice, its duplicated
dead blocks re-running the wait and the workdir removal before a third
copy raises on its duplicate close. -/
theorem c3_termination_paths (cause : EndCause) (rc : Int)
    (entry msg : String) :
    terminalCount (deliveredFrames (runTrace cause rc)) =
      (if cause = .clientDisconnect then 0 else 1) ∧
    (runTrace cause rc).count .rmtree = 1 ∧
    terminalCount (deliveredFrames (goDebugTrace cause rc)) =
      (if cause = .clientDisconnect then 0 else 1) ∧
    (goDebugTrace cause rc).count .rmtree = 2 ∧
    deliveredFrames (runEntryNotFoundTrace entry) =
      [.errFrame ("entry not found: " ++ entry)] ∧
    .rmtree ∈ runEntryNotFoundTrace entry ∧
    deliveredFrames (runSpawnFailTrace msg) = [.errFrame msg] ∧
    .rmtree ∈ runSpawnFailTrace msg ∧
    deliveredFrames runInvalidSidTrace = [.errFrame "invalid session_id"] := by
  cases cause <;>
    simp [runTrace, goDebugTrace, runEntryNotFoundTrace, runSpawnFailTrace,
      runInvalidSidTrace, deliveredFrames, deliveredGo, terminalCount,
      isTerminalFrame, List.count, List.filter]

/-! ## Supervisor tasks and the watchdog -/

/-- The concurrent tasks and futures of an attachment. -/
inductive SupTask where
  | stdoutPump
  | stderrPump
  | watchdogTimer
  | procWait
  | recvClient
  | exitEventWait
deriving DecidableEq, Repr

/-- Auxiliary tasks the run-mode attachment creates before its loop
(ws_routes.py 2301-2309): both pumps and the watchdog. -/
def runSessionTasks : List SupTask := [.stdoutPump, .stderrPump, .watchdogTimer]

/-- The futures raced by each iteration of the run-mode loop
(ws_routes.py 2315-2317). -/
def runLoopRace : List SupTask := [.recvClient, .procWait]

/-- Tasks created by `_handle_python_debug` before its loop (ws_routes.py
673-674): the two pumps only — no watchdog task exists in any debug
handler. -/
def pyDebugTasks : List SupTask := [.stdoutPump, .stderrPump]

/-- Tasks created by `_handle_cpp_debug` (ws_routes.py 450-451). -/
def cppDebugTasks : List SupTask := [.stdoutPump, .stderrPump]

/-- Tasks created by `_handle_java_debug` (ws_routes.py 1179-1180). -/
def javaDebugTasks : List SupTask := [.stdoutPump, .stderrPump]

/-- Tasks created by the live block of `_handle_go_debug` (ws_routes.py
1490-1491). -/
def goDebugTasks : List SupTask := [.stdoutPump, .stderrPump]

/-- The futures raced by the debug handlers' loops (e.g. ws_routes.py
693-695): client message against the exit event. -/
def debugLoopRace : List SupTask := [.recvClient, .exitEventWait]

/-- `WALL = 60` (ws_routes.py line 2304). -/
def WALL : Nat := 60

/-- The watchdog body (ws_routes.py 2305-2308): when the timer fires the
child is killed exactly if it has not yet exited. -/
def watchdogKills (returncode : Option Int) : Bool := returncode.isNone

/-- C8 (counterexample): no debug handler creates a watchdog task — the
60-second watchdog exists only in the run-mode attachment, so the claim's
"run mode and debug mode alike" fails. -/
theorem c8_no_watchdog_in_debug :
    .watchdogTimer ∉ pyDebugTasks ∧
    .watchdogTimer ∉ cppDebugTasks ∧
    .watchdogTimer ∉ javaDebugTasks ∧
    .watchdogTimer ∉ goDebugTasks ∧
    .watchdogTimer ∈ runSessionTasks := by decide

/-- C8 (amended): the run-mode attachment races the next client message
against child exit while a watchdog task with a 60-second default sleeps
alongside; on expiry the child is killed exactly when still alive, and
the terminal `exit` frame carries the code `proc.wait()` then returns.
Debug-mode attachments race the client message against the exit event and
have no watchdog. -/
theorem c8_watchdog_run_mode_only (rc : Int) (cause : EndCause) :
    WALL = 60 ∧
    .watchdogTimer ∈ runSessionTasks ∧
    runLoopRace = [.recvClient, .procWait] ∧
    (∀ r : Option Int, watchdogKills r = true ↔ r = none) ∧
    (runTrace cause rc).count (.send (.exit rc)) = 1 ∧
    debugLoopRace = [.recvClient, .exitEventWait] ∧
    .watchdogTimer ∉ pyDebugTasks := by
  refine ⟨rfl, by decide, rfl, ?_, ?_, rfl, by decide⟩
  · intro r
    cases r <;> simp [watchdogKills]
  · cases cause <;> simp [runTrace, List.count]

end OmniSpec
